import Mathlib

/-!
# The chain-definition builder of `chain.go` (package `faaschain`)

A shallow embedding of the builder: the option functions, the three mutating
calls `ApplyModifier`, `Callback` and `Apply` with their phase-assignment
rule, the handler setters and `Build`.

* The package variable `emptyPhase` is process-wide state.  Every builder call
  takes the current value of the variable and returns the new one next to the
  updated builder.
* A call that would use a missing `*sdk.Phase` does not complete; it returns
  `none`.
* Package `sdk` is not among the sources.  Its containers are modelled from
  the data model of the specification; what the specification does not fix
  (`Addparam`, `Encode`, URL joining of the standard library) is a parameter.
-/

namespace faaschain

/-! ## Go maps -/

/-- Assignment `m[key] = value` on a map kept as a list of entries with
distinct keys: an existing entry is overwritten in place, a new one is added. -/
def mapSet {V : Type} : List (String × V) → String → V → List (String × V)
  | [], key, value => [(key, value)]
  | (k, v) :: m, key, value =>
    if k = key then (k, value) :: m else (k, v) :: mapSet m key value

/-- Lookup `m[key]`. -/
def mapGet {V : Type} : List (String × V) → String → Option V
  | [], _ => none
  | (k, v) :: m, key => if k = key then some v else mapGet m key

/-! ## Package `sdk` -/

/-- Modelled from the spec: the type `sdk.Modifier`, an inline transformation
taking a byte payload and returning a transformed payload or a failure
(`func([]byte) ([]byte, error)` in the comment of `ApplyModifier`). -/
abbrev Modifier := List UInt8 → Except String (List UInt8)

/-- Modelled from the spec: the type `sdk.ErrorHandler` of the optional failure
handler of a chain.  The builder stores a handler and never calls it; its
signature is not in the sources, so a handler is known by its label only. -/
structure ErrorHandler where
  label : String
deriving DecidableEq, Repr

/-- Modelled from the spec: the type `sdk.Handler` of the optional finally
handler of a chain, stored and never called by the builder. -/
structure Handler where
  label : String
deriving DecidableEq, Repr

/-- Modelled from the spec: the executable unit of package `sdk`, one of a
named remote function, an inline modifier, or a callback to a URL.  Function
and callback carry a header map and a query-parameter map. -/
inductive ExecutableUnit where
  | Function (Name : String) (Header : List (String × String))
      (Param : List (String × List String))
  | Modifier (Mod : Modifier)
  | Callback (Url : String) (Header : List (String × String))
      (Param : List (String × List String))

/-- Modelled from the spec: `sdk.CreateFunction`, a function unit with the
given name and no header or query parameter yet. -/
def CreateFunction (name : String) : ExecutableUnit := .Function name [] []

/-- Modelled from the spec: `sdk.CreateModifier`, a unit wrapping the
transformation. -/
def CreateModifier (mod : Modifier) : ExecutableUnit := .Modifier mod

/-- Modelled from the spec: `sdk.CreateCallback`, a callback unit for the URL
with no header or query parameter yet. -/
def CreateCallback (url : String) : ExecutableUnit := .Callback url [] []

/-- Modelled from the spec: `Addheader` of package `sdk`; header entries
accumulate on the unit, a later entry with the same key overwrites the earlier
one. -/
def ExecutableUnit.Addheader (u : ExecutableUnit) (key value : String) : ExecutableUnit :=
  match u with
  | .Function name header param => .Function name (mapSet header key value) param
  | .Modifier mod => .Modifier mod
  | .Callback url header param => .Callback url (mapSet header key value) param

/-- Modelled from the spec: `Addparam` of package `sdk`, which receives one
key and one value at a time.  The specification does not say how a single
value is merged into the query-parameter map of the unit, so that update is
the parameter `addparam`; it acts on the query-parameter map only. -/
def ExecutableUnit.Addparam
    (addparam : List (String × List String) → String → String → List (String × List String))
    (u : ExecutableUnit) (key value : String) : ExecutableUnit :=
  match u with
  | .Function name header param => .Function name header (addparam param key value)
  | .Modifier mod => .Modifier mod
  | .Callback url header param => .Callback url header (addparam param key value)

/-- The header map of a unit (a modifier has none). -/
def ExecutableUnit.header : ExecutableUnit → List (String × String)
  | .Function _ header _ => header
  | .Modifier _ => []
  | .Callback _ header _ => header

/-- The query-parameter map of a unit (a modifier has none). -/
def ExecutableUnit.param : ExecutableUnit → List (String × List String)
  | .Function _ _ param => param
  | .Modifier _ => []
  | .Callback _ _ param => param

/-- Modelled from the spec: `sdk.Phase`, an ordered sequence of executable
units. -/
structure Phase where
  Functions : List ExecutableUnit

/-- Modelled from the spec: `sdk.CreateExecutionPhase`, a phase with no unit. -/
def CreateExecutionPhase : Phase := { Functions := [] }

/-- Modelled from the spec: `sdk.Chain`, an ordered sequence of phases plus an
optional failure handler and an optional finally handler. -/
structure Chain where
  Phases : List Phase
  FailureHandler : Option ErrorHandler
  Finally : Option Handler

/-- Modelled from the spec: `sdk.CreateChain`, a chain with no phase and no
handler. -/
def CreateChain : Chain := { Phases := [], FailureHandler := none, Finally := none }

/-- A `*sdk.Phase` that the chain holds: the position of the phase in
`chain.Phases`.  A missing phase (`nil`) is `none : Option PhaseRef`. -/
abbrev PhaseRef := Nat

/-- Modelled from the spec: `Chain.AddPhase`, which appends the phase to the
chain.  The second component is the pointer the caller keeps to that phase. -/
def Chain.AddPhase (chain : Chain) (phase : Phase) : Chain × PhaseRef :=
  ({ chain with Phases := chain.Phases ++ [phase] }, chain.Phases.length)

/-- Modelled from the spec: `Chain.GetLastPhase`, the current last phase of
the chain; there is none when the chain has zero phases. -/
def Chain.GetLastPhase (chain : Chain) : Option PhaseRef :=
  if chain.Phases.length = 0 then none else some (chain.Phases.length - 1)

/-- Modelled from the spec: `Phase.AddFunction`, which appends the unit to the
tail of the unit sequence of the phase. -/
def Phase.AddFunction (phase : Phase) (function : ExecutableUnit) : Phase :=
  { phase with Functions := phase.Functions ++ [function] }

/-- The call `phase.AddFunction(function)` through a `*sdk.Phase` held by the
chain.  On a missing phase the call does not complete. -/
def Chain.AddFunction (chain : Chain) (phase : Option PhaseRef) (function : ExecutableUnit) :
    Option Chain :=
  match phase with
  | none => none
  | some i => some { chain with Phases := chain.Phases.modify (fun p => p.AddFunction function) i }

/-! ## `chain.go` -/

/-- The struct `Options` (lines 9-13). -/
structure Options where
  header : List (String × String)
  query : List (String × List String)
  sync : Bool

/-- The type `Option func(*Options)` (line 23): an update of an `Options`
value. -/
abbrev CallOption := Options → Options

/-- The value `Options{}`. -/
def Options.zero : Options := { header := [], query := [], sync := false }

/-- The method `reset` (lines 32-36). -/
def Options.reset (_o : Options) : Options := { header := [], query := [], sync := false }

/-- The function `SyncCall` (lines 39-43). -/
def SyncCall : CallOption := fun o => { o with sync := true }

/-- The variable `Sync` (line 27). -/
def Sync : CallOption := SyncCall

/-- The function `Header` (lines 46-50). -/
def Header (key value : String) : CallOption :=
  fun o => { o with header := mapSet o.header key value }

/-- The function `Query` (lines 53-61). -/
def Query (key : String) (value : List String) : CallOption :=
  fun o =>
    let array := value.foldl (fun array val => array ++ [val]) []
    { o with query := mapSet o.query key array }

/-- The struct `Fchain` (lines 15-21). -/
structure Fchain where
  chain : Chain
  id : String
  url : String
  asyncUrl : String
  chainDef : List UInt8

/-- The function `NewFaaschain` (lines 64-74).  The parameter `joinUrl` stands
for the standard-library steps `url.Parse`, `path.Join` and `String`. -/
def NewFaaschain (joinUrl : String → String → String) (gateway chain : String) : Fchain :=
  { chain := CreateChain
    id := ""
    url := joinUrl gateway ("function/" ++ chain)
    asyncUrl := joinUrl gateway ("async-function/" ++ chain)
    chainDef := [] }

/-- The method `SetId` (lines 77-79). -/
def SetId (id : String) (fchain : Fchain) (emptyPhase : Bool) : Option (Fchain × Bool) :=
  some ({ fchain with id := id }, emptyPhase)

/-- The method `ApplyModifier` (lines 84-96). -/
def ApplyModifier (mod : Modifier) (fchain : Fchain) (emptyPhase : Bool) :
    Option (Fchain × Bool) :=
  let newMod := CreateModifier mod
  let (chain, phase, emptyPhase) :=
    if fchain.chain.Phases.length = 0 then
      let (chain, phase) := fchain.chain.AddPhase CreateExecutionPhase
      (chain, some phase, true)
    else
      (fchain.chain, fchain.chain.GetLastPhase, emptyPhase)
  match chain.AddFunction phase newMod with
  | none => none
  | some chain => some ({ fchain with chain := chain }, emptyPhase)

/-- One round of the option loop of `Callback` (lines 105-120): reset the
option set, run the option, copy headers and query values onto the unit.  A Go
map is ranged over in no fixed order; after `reset` the options of this
package leave at most one entry in each map. -/
def Callback.option
    (addparam : List (String × List String) → String → String → List (String × List String))
    (st : Options × ExecutableUnit) (opt : CallOption) : Options × ExecutableUnit :=
  let o := opt st.1.reset
  let newCallback := st.2
  let newCallback :=
    if o.header.length ≠ 0 then
      o.header.foldl (fun u kv => u.Addheader kv.1 kv.2) newCallback
    else newCallback
  let newCallback :=
    if o.query.length ≠ 0 then
      o.query.foldl (fun u ka => ka.2.foldl (fun u value => u.Addparam addparam ka.1 value) u)
        newCallback
    else newCallback
  (o, newCallback)

/-- The unit that `Callback` builds (lines 102-120). -/
def Callback.unit
    (addparam : List (String × List String) → String → String → List (String × List String))
    (url : String) (opts : List CallOption) : ExecutableUnit :=
  (opts.foldl (Callback.option addparam) (Options.zero, CreateCallback url)).2

/-- The method `Callback` (lines 101-132). -/
def Callback
    (addparam : List (String × List String) → String → String → List (String × List String))
    (url : String) (opts : List CallOption) (fchain : Fchain) (emptyPhase : Bool) :
    Option (Fchain × Bool) :=
  let newCallback := Callback.unit addparam url opts
  let (chain, phase, emptyPhase) :=
    if fchain.chain.Phases.length = 0 then
      let (chain, phase) := fchain.chain.AddPhase CreateExecutionPhase
      (chain, some phase, true)
    else
      (fchain.chain, fchain.chain.GetLastPhase, emptyPhase)
  match chain.AddFunction phase newCallback with
  | none => none
  | some chain => some ({ fchain with chain := chain }, emptyPhase)

/-- One round of the option loop of `Apply` (lines 141-159); the state is the
option set `o`, the unit `newfunc` and the local variable `sync`. -/
def Apply.option
    (addparam : List (String × List String) → String → String → List (String × List String))
    (st : Options × ExecutableUnit × Bool) (opt : CallOption) :
    Options × ExecutableUnit × Bool :=
  let o := opt st.1.reset
  let newfunc := st.2.1
  let sync := st.2.2
  let newfunc :=
    if o.header.length ≠ 0 then
      o.header.foldl (fun u kv => u.Addheader kv.1 kv.2) newfunc
    else newfunc
  let newfunc :=
    if o.query.length ≠ 0 then
      o.query.foldl (fun u ka => ka.2.foldl (fun u value => u.Addparam addparam ka.1 value) u)
        newfunc
    else newfunc
  let sync := if o.sync then true else sync
  (o, newfunc, sync)

/-- The option loop of `Apply` (lines 137-159): the unit `newfunc` and the
local variable `sync` when the loop ends. -/
def Apply.options
    (addparam : List (String × List String) → String → String → List (String × List String))
    (function : String) (opts : List CallOption) : ExecutableUnit × Bool :=
  (opts.foldl (Apply.option addparam) (Options.zero, CreateFunction function, false)).2

/-- Phase resolution of `Apply` (lines 161-176) for a given value of the local
variable `sync`: the chain and the pointer `phase`. -/
def Apply.phase (sync : Bool) (chain : Chain) (emptyPhase : Bool) : Chain × Option PhaseRef :=
  if sync then
    if chain.Phases.length = 0 then
      let (chain, phase) := chain.AddPhase CreateExecutionPhase
      (chain, some phase)
    else
      (chain, chain.GetLastPhase)
  else
    if emptyPhase then
      (chain, chain.GetLastPhase)
    else
      let (chain, phase) := chain.AddPhase CreateExecutionPhase
      (chain, some phase)

/-- The method `Apply` (lines 136-181). -/
def Apply
    (addparam : List (String × List String) → String → String → List (String × List String))
    (function : String) (opts : List CallOption) (fchain : Fchain) (emptyPhase : Bool) :
    Option (Fchain × Bool) :=
  let (newfunc, sync) := Apply.options addparam function opts
  let (chain, phase) := Apply.phase sync fchain.chain emptyPhase
  let emptyPhase := false
  match chain.AddFunction phase newfunc with
  | none => none
  | some chain => some ({ fchain with chain := chain }, emptyPhase)

/-- The method `OnFailure` (lines 184-187). -/
def OnFailure (handler : ErrorHandler) (fchain : Fchain) (emptyPhase : Bool) :
    Option (Fchain × Bool) :=
  some ({ fchain with chain := { fchain.chain with FailureHandler := some handler } }, emptyPhase)

/-- The method `Finally` (lines 191-194). -/
def Finally (handler : Handler) (fchain : Fchain) (emptyPhase : Bool) :
    Option (Fchain × Bool) :=
  some ({ fchain with chain := { fchain.chain with Finally := some handler } }, emptyPhase)

/-- The method `Build` (lines 197-200).  The parameter `encode` stands for
`Chain.Encode` of package `sdk`, which returns the bytes and the error; the
third component of the result is the error that `Build` returns. -/
def Build (encode : Chain → List UInt8 × Option String) (fchain : Fchain) (emptyPhase : Bool) :
    Option (Fchain × Bool × Option String) :=
  let (chainDef, err) := encode fchain.chain
  some ({ fchain with chainDef := chainDef }, emptyPhase, err)

/-- The method `GetDefinition` (lines 203-205); the conversion to a string
keeps the bytes. -/
def GetDefinition (fchain : Fchain) : List UInt8 := fchain.chainDef

/-- The method `GetChain` (lines 208-210). -/
def GetChain (fchain : Fchain) : Chain := fchain.chain

/-- The method `GetId` (lines 213-215). -/
def GetId (fchain : Fchain) : String := fchain.id

/-- The method `GetUrl` (lines 218-220). -/
def GetUrl (fchain : Fchain) : String := fchain.url

/-- The method `GetAsyncUrl` (lines 223-225). -/
def GetAsyncUrl (fchain : Fchain) : String := fchain.asyncUrl

/-! ## Construction sequences and the vocabulary of the statements -/

/-- The three options of the package, by name. -/
inductive OptionArg where
  | SyncCall
  | Header (key value : String)
  | Query (key : String) (value : List String)
deriving DecidableEq, Repr

/-- The option function that an option name stands for. -/
def OptionArg.toOption : OptionArg → CallOption
  | .SyncCall => faaschain.SyncCall
  | .Header key value => faaschain.Header key value
  | .Query key value => faaschain.Query key value

/-- The option functions of a list of option names. -/
def optionsOf (args : List OptionArg) : List CallOption := args.map OptionArg.toOption

/-- The (key, value) pairs of the `Header` options of a list, in list order. -/
def headerEntries : List OptionArg → List (String × String)
  | [] => []
  | .Header key value :: args => (key, value) :: headerEntries args
  | _ :: args => headerEntries args

/-- The value of the last `Header` option of the list for the key. -/
def lastHeader : List OptionArg → String → Option String
  | [], _ => none
  | a :: args, key =>
    match lastHeader args key with
    | some v => some v
    | none =>
      match a with
      | .Header k v => if k = key then some v else none
      | _ => none

/-- The (key, value) pairs of the `Query` options of a list: one pair for each
value of each option, in list order and value order. -/
def queryEntries : List OptionArg → List (String × String)
  | [] => []
  | .Query key value :: args => value.map (fun v => (key, v)) ++ queryEntries args
  | _ :: args => queryEntries args

/-- A phase-building call of a construction sequence. -/
inductive Call where
  | ApplyModifier (mod : Modifier)
  | Callback (url : String) (opts : List CallOption)
  | Apply (function : String) (opts : List CallOption)

/-- Run one call on a builder. -/
def Call.exec
    (addparam : List (String × List String) → String → String → List (String × List String)) :
    Call → Fchain → Bool → Option (Fchain × Bool)
  | .ApplyModifier mod, fchain, emptyPhase => faaschain.ApplyModifier mod fchain emptyPhase
  | .Callback url opts, fchain, emptyPhase => faaschain.Callback addparam url opts fchain emptyPhase
  | .Apply function opts, fchain, emptyPhase => faaschain.Apply addparam function opts fchain emptyPhase

/-- The unit that a call builds. -/
def Call.unit
    (addparam : List (String × List String) → String → String → List (String × List String)) :
    Call → ExecutableUnit
  | .ApplyModifier mod => CreateModifier mod
  | .Callback url opts => Callback.unit addparam url opts
  | .Apply function opts => (Apply.options addparam function opts).1

/-- Run a sequence of calls on one builder, in order; `none` when one of them
does not complete. -/
def run
    (addparam : List (String × List String) → String → String → List (String × List String))
    (calls : List Call) (fchain : Fchain) (emptyPhase : Bool) : Option (Fchain × Bool) :=
  calls.foldlM (fun s c => c.exec addparam s.1 s.2) (fchain, emptyPhase)

/-- Any builder operation. -/
inductive Op where
  | call (c : Call)
  | OnFailure (handler : ErrorHandler)
  | Finally (handler : Handler)
  | Build
  | SetId (id : String)

/-- Run one builder operation; the error that `Build` returns is dropped. -/
def Op.exec
    (addparam : List (String × List String) → String → String → List (String × List String))
    (encode : Chain → List UInt8 × Option String) :
    Op → Fchain → Bool → Option (Fchain × Bool)
  | .call c, fchain, emptyPhase => c.exec addparam fchain emptyPhase
  | .OnFailure handler, fchain, emptyPhase => faaschain.OnFailure handler fchain emptyPhase
  | .Finally handler, fchain, emptyPhase => faaschain.Finally handler fchain emptyPhase
  | .Build, fchain, emptyPhase => (faaschain.Build encode fchain emptyPhase).map (fun r => (r.1, r.2.1))
  | .SetId id, fchain, emptyPhase => faaschain.SetId id fchain emptyPhase

/-- Append-only relation between the phase lists before and after a call: every
phase is still at its position and its earlier units are the first units of
the later phase. -/
def PhasesExtend (before after : List Phase) : Prop :=
  ∀ (i : Nat) (p : Phase), before[i]? = some p →
    ∃ q, after[i]? = some q ∧ p.Functions <+: q.Functions

/-- The builder with the phase list of its chain replaced and every other
field kept. -/
def Fchain.withPhases (fchain : Fchain) (phases : List Phase) : Fchain :=
  { fchain with chain := { fchain.chain with Phases := phases } }

/-- An instance of the parameter `addparam` for the examples: the value is
added at the end of the value list of the key. -/
def addparamAppend (param : List (String × List String)) (key value : String) :
    List (String × List String) :=
  mapSet param key ((mapGet param key).getD [] ++ [value])

/-- An instance of the parameter `joinUrl` for the examples. -/
def joinUrlSlash (gateway path : String) : String := gateway ++ "/" ++ path

/-- An instance of the parameter `encode` for the examples: one byte for each
phase, no error. -/
def encodeCount (chain : Chain) : List UInt8 × Option String :=
  (chain.Phases.map (fun p => UInt8.ofNat p.Functions.length), none)

/-- Modelled from the spec: the contract of `Chain.Encode` of package `sdk`,
which is not among the sources.  An encoding failure comes with no partial
result: whenever `Encode` returns an error, it returns no bytes with it. -/
def EncodeContract (encode : Chain → List UInt8 × Option String) : Prop :=
  ∀ (chain : Chain) (e : String), (encode chain).2 = some e → (encode chain).1 = []

/-- An instance of the parameter `encode` for the examples: it fails, with no
bytes, on a chain without phases and otherwise returns one byte for each
phase. -/
def encodeNonEmpty (chain : Chain) : List UInt8 × Option String :=
  match chain.Phases with
  | [] => ([], some "chain has no phase")
  | p :: ps => ((p :: ps).map (fun q => UInt8.ofNat q.Functions.length), none)

/-- Whether a unit is a function unit. -/
def ExecutableUnit.isFunction : ExecutableUnit → Bool
  | .Function _ _ _ => true
  | .Modifier _ => false
  | .Callback _ _ _ => false

/-- Whether a call is an `Apply`. -/
def Call.isApply : Call → Bool
  | .Apply _ _ => true
  | _ => false

/-- The phase-building calls among a sequence of builder operations, in order. -/
def Op.calls : List Op → List Call
  | [] => []
  | .call c :: ops => c :: Op.calls ops
  | _ :: ops => Op.calls ops

/-- Run a sequence of builder operations on one builder, in order. -/
def runOps
    (addparam : List (String × List String) → String → String → List (String × List String))
    (encode : Chain → List UInt8 × Option String)
    (ops : List Op) (fchain : Fchain) (emptyPhase : Bool) : Option (Fchain × Bool) :=
  ops.foldlM (fun s op => op.exec addparam encode s.1 s.2) (fchain, emptyPhase)

/-- A phase-building call whose options are the options of the package, by
name. -/
inductive NamedCall where
  | ApplyModifier (mod : Modifier)
  | Callback (url : String) (args : List OptionArg)
  | Apply (function : String) (args : List OptionArg)

/-- The call that a named call stands for. -/
def NamedCall.toCall : NamedCall → Call
  | .ApplyModifier mod => Call.ApplyModifier mod
  | .Callback url args => Call.Callback url (optionsOf args)
  | .Apply function args => Call.Apply function (optionsOf args)

/-- Whether a named call is an `Apply`. -/
def NamedCall.isApply : NamedCall → Bool
  | .Apply _ _ => true
  | _ => false

/-- Whether a named call is an `Apply` without `Sync`. -/
def NamedCall.isAsyncApply : NamedCall → Bool
  | .Apply _ args => decide (OptionArg.SyncCall ∉ args)
  | _ => false

/-- Whether a named call is an `Apply` with `Sync`. -/
def NamedCall.isSyncApply : NamedCall → Bool
  | .Apply _ args => decide (OptionArg.SyncCall ∈ args)
  | _ => false

/-- The number of `Apply` calls without `Sync` in a sequence. -/
def asyncApplies (calls : List NamedCall) : Nat :=
  (calls.filter NamedCall.isAsyncApply).length

/-- The closed form for the number of phases, as a function of the call
sequence: 0 for the empty sequence; the number of `Apply` calls without `Sync`
when the first call is one of them; one more than that number when the first
call is an `Apply` with `Sync`; and, when the first call is an `ApplyModifier`
or a `Callback`, that number when the first `Apply` of the sequence is without
`Sync` and one more otherwise. -/
def closedFormPhases (calls : List NamedCall) : Nat :=
  match calls with
  | [] => 0
  | .Apply _ args :: _ =>
    if OptionArg.SyncCall ∈ args then 1 + asyncApplies calls else asyncApplies calls
  | _ :: _ =>
    match calls.find? NamedCall.isApply with
    | some c => if c.isAsyncApply then asyncApplies calls else 1 + asyncApplies calls
    | none => 1 + asyncApplies calls

/-- The phase that holds the units of a group of calls, in call order. -/
def groupPhase
    (addparam : List (String × List String) → String → String → List (String × List String))
    (grp : List NamedCall) : Phase :=
  { Functions := grp.map (fun c => c.toCall.unit addparam) }

/-- What a sequence of phase-building calls leaves behind on a builder that
started with zero phases and the flag false: the flag is true exactly when
there was a call and none was an `Apply`; there is a phase exactly when there
was a call; without an `Apply` there is at most one phase; the units of the
phases are the units of the calls in order; no phase is without a unit; and
there are at most as many phases as calls. -/
def Reached
    (addparam : List (String × List String) → String → String → List (String × List String))
    (calls : List Call) (phases : List Phase) (emptyPhase : Bool) : Prop :=
  (emptyPhase = true ↔ calls ≠ [] ∧ ∀ c ∈ calls, c.isApply = false)
  ∧ (phases = [] ↔ calls = [])
  ∧ ((∀ c ∈ calls, c.isApply = false) → phases.length ≤ 1)
  ∧ phases.flatMap (fun p => p.Functions) = calls.map (Call.unit addparam)
  ∧ (∀ p ∈ phases, p.Functions ≠ [])
  ∧ phases.length ≤ calls.length

/-! ## Lemmas on maps and on the containers -/

theorem mapGet_mapSet {V : Type} (m : List (String × V)) (k k' : String) (v : V) :
    mapGet (mapSet m k v) k' = if k = k' then some v else mapGet m k' := by
  induction m with
  | nil => simp [mapSet, mapGet]
  | cons e m ih =>
    obtain ⟨k0, v0⟩ := e
    by_cases h0 : k0 = k
    · subst h0
      by_cases h1 : k0 = k' <;> simp [mapSet, mapGet, h1]
    · by_cases h1 : k0 = k'
      · subst h1
        have : ¬ k = k0 := fun h => h0 h.symm
        simp [mapSet, mapGet, h0, this]
      · simp [mapSet, mapGet, h0, h1, ih]

theorem modify_length_append {α : Type} (f : α → α) (l : List α) (a : α) :
    (l ++ [a]).modify f l.length = l ++ [f a] := by
  induction l with
  | nil => rfl
  | cons b l ih => simp [ih]

theorem addPhase_addFunction (chain : Chain) (u : ExecutableUnit) :
    (chain.AddPhase CreateExecutionPhase).1.AddFunction
        (some (chain.AddPhase CreateExecutionPhase).2) u
      = some { chain with Phases := chain.Phases ++ [{ Functions := [u] }] } := by
  simp [Chain.AddPhase, Chain.AddFunction, modify_length_append, Phase.AddFunction,
    CreateExecutionPhase]

theorem getLastPhase_addFunction (chain : Chain) (front : List Phase) (last : Phase)
    (u : ExecutableUnit) (h : chain.Phases = front ++ [last]) :
    chain.AddFunction chain.GetLastPhase u
      = some { chain with Phases := front ++ [last.AddFunction u] } := by
  simp [Chain.GetLastPhase, Chain.AddFunction, h, modify_length_append]

theorem getLastPhase_addFunction_nil (chain : Chain) (u : ExecutableUnit)
    (h : chain.Phases = []) : chain.AddFunction chain.GetLastPhase u = none := by
  simp [Chain.GetLastPhase, Chain.AddFunction, h]

/-! ## Lemmas on the option loops -/

theorem foldl_concat_eq (value acc : List String) :
    value.foldl (fun array val => array ++ [val]) acc = acc ++ value := by
  induction value generalizing acc with
  | nil => simp
  | cons v value ih => simp [ih]

theorem headerEntries_cons (a : OptionArg) (args : List OptionArg) :
    headerEntries (a :: args) = headerEntries [a] ++ headerEntries args := by
  cases a <;> simp [headerEntries]

theorem queryEntries_cons (a : OptionArg) (args : List OptionArg) :
    queryEntries (a :: args) = queryEntries [a] ++ queryEntries args := by
  cases a <;> simp [queryEntries]

theorem foldl_Addparam_Function
    (addparam : List (String × List String) → String → String → List (String × List String))
    (key name : String) (header : List (String × String)) (value : List String)
    (param : List (String × List String)) :
    value.foldl (fun u v => ExecutableUnit.Addparam addparam u key v)
        (ExecutableUnit.Function name header param)
      = ExecutableUnit.Function name header (value.foldl (fun m v => addparam m key v) param) := by
  induction value generalizing param with
  | nil => rfl
  | cons v value ih =>
    rw [List.foldl_cons, List.foldl_cons]
    exact ih (addparam param key v)

theorem foldl_Addparam_Callback
    (addparam : List (String × List String) → String → String → List (String × List String))
    (key url : String) (header : List (String × String)) (value : List String)
    (param : List (String × List String)) :
    value.foldl (fun u v => ExecutableUnit.Addparam addparam u key v)
        (ExecutableUnit.Callback url header param)
      = ExecutableUnit.Callback url header (value.foldl (fun m v => addparam m key v) param) := by
  induction value generalizing param with
  | nil => rfl
  | cons v value ih =>
    rw [List.foldl_cons, List.foldl_cons]
    exact ih (addparam param key v)

theorem Apply_option_arg
    (addparam : List (String × List String) → String → String → List (String × List String))
    (o : Options) (name : String) (header : List (String × String))
    (param : List (String × List String)) (sync : Bool) (a : OptionArg) :
    Apply.option addparam (o, ExecutableUnit.Function name header param, sync) a.toOption
      = (a.toOption o.reset,
         ExecutableUnit.Function name
           ((headerEntries [a]).foldl (fun m kv => mapSet m kv.1 kv.2) header)
           ((queryEntries [a]).foldl (fun m kv => addparam m kv.1 kv.2) param),
         sync || decide (a = OptionArg.SyncCall)) := by
  cases a with
  | SyncCall =>
    simp [Apply.option, OptionArg.toOption, SyncCall, Options.reset, headerEntries, queryEntries]
  | Header key value =>
    simp [Apply.option, OptionArg.toOption, Header, Options.reset, headerEntries, queryEntries,
      mapSet, ExecutableUnit.Addheader]
  | Query key value =>
    simp [Apply.option, OptionArg.toOption, Query, Options.reset, headerEntries, queryEntries,
      mapSet, foldl_concat_eq, foldl_Addparam_Function, List.foldl_map]

theorem Callback_option_arg
    (addparam : List (String × List String) → String → String → List (String × List String))
    (o : Options) (url : String) (header : List (String × String))
    (param : List (String × List String)) (a : OptionArg) :
    Callback.option addparam (o, ExecutableUnit.Callback url header param) a.toOption
      = (a.toOption o.reset,
         ExecutableUnit.Callback url
           ((headerEntries [a]).foldl (fun m kv => mapSet m kv.1 kv.2) header)
           ((queryEntries [a]).foldl (fun m kv => addparam m kv.1 kv.2) param)) := by
  cases a with
  | SyncCall =>
    simp [Callback.option, OptionArg.toOption, SyncCall, Options.reset, headerEntries,
      queryEntries]
  | Header key value =>
    simp [Callback.option, OptionArg.toOption, Header, Options.reset, headerEntries,
      queryEntries, mapSet, ExecutableUnit.Addheader]
  | Query key value =>
    simp [Callback.option, OptionArg.toOption, Query, Options.reset, headerEntries,
      queryEntries, mapSet, foldl_concat_eq, foldl_Addparam_Callback, List.foldl_map]

theorem Apply_option_foldl
    (addparam : List (String × List String) → String → String → List (String × List String))
    (args : List OptionArg) (o : Options) (name : String) (header : List (String × String))
    (param : List (String × List String)) (sync : Bool) :
    ((optionsOf args).foldl (Apply.option addparam)
        (o, ExecutableUnit.Function name header param, sync)).2
      = (ExecutableUnit.Function name
           ((headerEntries args).foldl (fun m kv => mapSet m kv.1 kv.2) header)
           ((queryEntries args).foldl (fun m kv => addparam m kv.1 kv.2) param),
         sync || decide (OptionArg.SyncCall ∈ args)) := by
  induction args generalizing o header param sync with
  | nil => simp [optionsOf, headerEntries, queryEntries]
  | cons a args ih =>
    have hstep := Apply_option_arg addparam o name header param sync a
    simp only [optionsOf, List.map_cons, List.foldl_cons] at ih ⊢
    rw [hstep, ih, headerEntries_cons a args, queryEntries_cons a args, List.foldl_append,
      List.foldl_append]
    congr 1
    by_cases h : a = OptionArg.SyncCall
    · simp [h]
    · have h' : ¬ OptionArg.SyncCall = a := fun e => h e.symm
      simp [h, h']

theorem Callback_option_foldl
    (addparam : List (String × List String) → String → String → List (String × List String))
    (args : List OptionArg) (o : Options) (url : String) (header : List (String × String))
    (param : List (String × List String)) :
    ((optionsOf args).foldl (Callback.option addparam)
        (o, ExecutableUnit.Callback url header param)).2
      = ExecutableUnit.Callback url
           ((headerEntries args).foldl (fun m kv => mapSet m kv.1 kv.2) header)
           ((queryEntries args).foldl (fun m kv => addparam m kv.1 kv.2) param) := by
  induction args generalizing o header param with
  | nil => simp [optionsOf, headerEntries, queryEntries]
  | cons a args ih =>
    have hstep := Callback_option_arg addparam o url header param a
    simp only [optionsOf, List.map_cons, List.foldl_cons] at ih ⊢
    rw [hstep, ih, headerEntries_cons a args, queryEntries_cons a args, List.foldl_append,
      List.foldl_append]

theorem Apply_options_eq
    (addparam : List (String × List String) → String → String → List (String × List String))
    (function : String) (args : List OptionArg) :
    Apply.options addparam function (optionsOf args)
      = (ExecutableUnit.Function function
           ((headerEntries args).foldl (fun m kv => mapSet m kv.1 kv.2) [])
           ((queryEntries args).foldl (fun m kv => addparam m kv.1 kv.2) []),
         decide (OptionArg.SyncCall ∈ args)) := by
  simp [Apply.options, CreateFunction, Apply_option_foldl]

theorem Callback_unit_eq
    (addparam : List (String × List String) → String → String → List (String × List String))
    (url : String) (args : List OptionArg) :
    Callback.unit addparam url (optionsOf args)
      = ExecutableUnit.Callback url
           ((headerEntries args).foldl (fun m kv => mapSet m kv.1 kv.2) [])
           ((queryEntries args).foldl (fun m kv => addparam m kv.1 kv.2) []) := by
  simp [Callback.unit, CreateCallback, Callback_option_foldl]

theorem mapGet_foldl_header (args : List OptionArg) (header : List (String × String))
    (key : String) :
    mapGet ((headerEntries args).foldl (fun m kv => mapSet m kv.1 kv.2) header) key
      = (match lastHeader args key with
         | some v => some v
         | none => mapGet header key) := by
  induction args generalizing header with
  | nil => simp [headerEntries, lastHeader]
  | cons a args ih =>
    rw [headerEntries_cons, List.foldl_append, ih]
    cases hl : lastHeader args key with
    | some v => simp [lastHeader, hl]
    | none =>
      cases a with
      | SyncCall => simp [lastHeader, hl, headerEntries]
      | Query k vs => simp [lastHeader, hl, headerEntries]
      | Header k v =>
        by_cases hk : k = key <;> simp [lastHeader, hl, headerEntries, mapGet_mapSet, hk]

/-! ## Lemmas on single calls -/

@[simp] theorem withPhases_Phases (fchain : Fchain) (phases : List Phase) :
    (fchain.withPhases phases).chain.Phases = phases := rfl

@[simp] theorem withPhases_withPhases (fchain : Fchain) (p q : List Phase) :
    (fchain.withPhases p).withPhases q = fchain.withPhases q := rfl

theorem ApplyModifier_nil (mod : Modifier) (fchain : Fchain) (emptyPhase : Bool)
    (h : fchain.chain.Phases = []) :
    ApplyModifier mod fchain emptyPhase
      = some (fchain.withPhases [{ Functions := [CreateModifier mod] }], true) := by
  have h2 := addPhase_addFunction fchain.chain (CreateModifier mod)
  simp only [ApplyModifier, h, List.length_nil, if_true]
  simp only [h] at h2
  rw [h2]
  simp [Fchain.withPhases]

theorem ApplyModifier_last (mod : Modifier) (fchain : Fchain) (emptyPhase : Bool)
    (front : List Phase) (last : Phase) (h : fchain.chain.Phases = front ++ [last]) :
    ApplyModifier mod fchain emptyPhase
      = some (fchain.withPhases (front ++ [last.AddFunction (CreateModifier mod)]),
          emptyPhase) := by
  have h2 := getLastPhase_addFunction fchain.chain front last (CreateModifier mod) h
  have h3 : ¬ (fchain.chain.Phases.length = 0) := by simp [h]
  simp only [ApplyModifier, h3, if_false]
  rw [h2]
  simp [Fchain.withPhases]

theorem Callback_nil
    (addparam : List (String × List String) → String → String → List (String × List String))
    (url : String) (opts : List CallOption) (fchain : Fchain) (emptyPhase : Bool)
    (h : fchain.chain.Phases = []) :
    Callback addparam url opts fchain emptyPhase
      = some (fchain.withPhases [{ Functions := [Callback.unit addparam url opts] }], true) := by
  have h2 := addPhase_addFunction fchain.chain (Callback.unit addparam url opts)
  simp only [Callback, h, List.length_nil, if_true]
  simp only [h] at h2
  rw [h2]
  simp [Fchain.withPhases]

theorem Callback_last
    (addparam : List (String × List String) → String → String → List (String × List String))
    (url : String) (opts : List CallOption) (fchain : Fchain) (emptyPhase : Bool)
    (front : List Phase) (last : Phase) (h : fchain.chain.Phases = front ++ [last]) :
    Callback addparam url opts fchain emptyPhase
      = some (fchain.withPhases
          (front ++ [last.AddFunction (Callback.unit addparam url opts)]), emptyPhase) := by
  have h2 := getLastPhase_addFunction fchain.chain front last
    (Callback.unit addparam url opts) h
  have h3 : ¬ (fchain.chain.Phases.length = 0) := by simp [h]
  simp only [Callback, h3, if_false]
  rw [h2]
  simp [Fchain.withPhases]

theorem Apply_new
    (addparam : List (String × List String) → String → String → List (String × List String))
    (function : String) (opts : List CallOption) (fchain : Fchain) (emptyPhase : Bool)
    (h : ((Apply.options addparam function opts).2 = false ∧ emptyPhase = false)
      ∨ ((Apply.options addparam function opts).2 = true ∧ fchain.chain.Phases = [])) :
    Apply addparam function opts fchain emptyPhase
      = some (fchain.withPhases (fchain.chain.Phases
          ++ [{ Functions := [(Apply.options addparam function opts).1] }]), false) := by
  have h2 := addPhase_addFunction fchain.chain (Apply.options addparam function opts).1
  rcases h with ⟨hs, he⟩ | ⟨hs, hp⟩
  · simp only [Apply, Apply.phase, hs, he, if_false, Bool.false_eq_true]
    rw [h2]
    simp [Fchain.withPhases]
  · simp only [Apply, Apply.phase, hs, hp, if_true, List.length_nil]
    simp only [hp] at h2
    rw [h2]
    simp [Fchain.withPhases]

theorem Apply_last
    (addparam : List (String × List String) → String → String → List (String × List String))
    (function : String) (opts : List CallOption) (fchain : Fchain) (emptyPhase : Bool)
    (front : List Phase) (last : Phase) (hp : fchain.chain.Phases = front ++ [last])
    (h : (Apply.options addparam function opts).2 = true ∨ emptyPhase = true) :
    Apply addparam function opts fchain emptyPhase
      = some (fchain.withPhases
          (front ++ [last.AddFunction (Apply.options addparam function opts).1]), false) := by
  have h2 := getLastPhase_addFunction fchain.chain front last
    (Apply.options addparam function opts).1 hp
  have h3 : ¬ (fchain.chain.Phases.length = 0) := by simp [hp]
  have h4 : (Apply.phase (Apply.options addparam function opts).2 fchain.chain emptyPhase)
      = (fchain.chain, fchain.chain.GetLastPhase) := by
    cases hs : (Apply.options addparam function opts).2
    · rcases h with h | h
      · rw [hs] at h; cases h
      · simp [Apply.phase, h]
    · simp [Apply.phase, h3]
  simp only [Apply, h4]
  rw [h2]
  simp [Fchain.withPhases]

theorem Apply_missing
    (addparam : List (String × List String) → String → String → List (String × List String))
    (function : String) (opts : List CallOption) (fchain : Fchain)
    (hs : (Apply.options addparam function opts).2 = false)
    (hp : fchain.chain.Phases = []) :
    Apply addparam function opts fchain true = none := by
  have h2 := getLastPhase_addFunction_nil fchain.chain
    (Apply.options addparam function opts).1 hp
  simp only [Apply, Apply.phase, hs, if_true, if_false, Bool.false_eq_true]
  rw [h2]

theorem run_nil
    (addparam : List (String × List String) → String → String → List (String × List String))
    (fchain : Fchain) (emptyPhase : Bool) :
    run addparam [] fchain emptyPhase = some (fchain, emptyPhase) := rfl

theorem run_cons
    (addparam : List (String × List String) → String → String → List (String × List String))
    (c : Call) (calls : List Call) (fchain : Fchain) (emptyPhase : Bool) :
    run addparam (c :: calls) fchain emptyPhase
      = (c.exec addparam fchain emptyPhase).bind (fun s => run addparam calls s.1 s.2) := by
  simp [run, List.foldlM_cons]

theorem run_async_applies
    (addparam : List (String × List String) → String → String → List (String × List String))
    (cs : List (String × List OptionArg)) (fchain : Fchain)
    (hasync : ∀ c ∈ cs, OptionArg.SyncCall ∉ c.2) :
    run addparam (cs.map (fun c => Call.Apply c.1 (optionsOf c.2))) fchain false
      = some (fchain.withPhases (fchain.chain.Phases ++ cs.map (fun c =>
          { Functions := [(Apply.options addparam c.1 (optionsOf c.2)).1] })), false) := by
  induction cs generalizing fchain with
  | nil => simp [run_nil, Fchain.withPhases]
  | cons c cs ih =>
    have hc : (Apply.options addparam c.1 (optionsOf c.2)).2 = false := by
      rw [Apply_options_eq]
      simpa using hasync c (List.mem_cons_self _ _)
    have hstep := Apply_new addparam c.1 (optionsOf c.2) fchain false (Or.inl ⟨hc, rfl⟩)
    have hrest := ih (fchain.withPhases (fchain.chain.Phases
        ++ [{ Functions := [(Apply.options addparam c.1 (optionsOf c.2)).1] }]))
      (fun d hd => hasync d (List.mem_cons_of_mem _ hd))
    simp only [List.map_cons, run_cons, Call.exec, hstep, Option.some_bind]
    rw [hrest]
    simp

theorem run_sync_applies
    (addparam : List (String × List String) → String → String → List (String × List String))
    (cs : List (String × List OptionArg)) (fchain : Fchain) (emptyPhase : Bool)
    (front : List Phase) (last : Phase) (hp : fchain.chain.Phases = front ++ [last])
    (hsync : ∀ c ∈ cs, OptionArg.SyncCall ∈ c.2) (he : cs = [] → emptyPhase = false) :
    run addparam (cs.map (fun c => Call.Apply c.1 (optionsOf c.2))) fchain emptyPhase
      = some (fchain.withPhases (front ++ [{ Functions := last.Functions ++ cs.map (fun c =>
          (Apply.options addparam c.1 (optionsOf c.2)).1) }]), false) := by
  induction cs generalizing fchain emptyPhase last with
  | nil =>
    have hl : ({ Functions := last.Functions } : Phase) = last := rfl
    simp [run_nil, Fchain.withPhases, he rfl, hl, ← hp]
  | cons c cs ih =>
    have hc : (Apply.options addparam c.1 (optionsOf c.2)).2 = true := by
      rw [Apply_options_eq]
      simpa using hsync c (List.mem_cons_self _ _)
    have hstep := Apply_last addparam c.1 (optionsOf c.2) fchain emptyPhase front last hp
      (Or.inl hc)
    have hrest := ih (fchain.withPhases
        (front ++ [last.AddFunction (Apply.options addparam c.1 (optionsOf c.2)).1])) false
      (last.AddFunction (Apply.options addparam c.1 (optionsOf c.2)).1) rfl
      (fun d hd => hsync d (List.mem_cons_of_mem _ hd)) (fun _ => rfl)
    simp only [List.map_cons, run_cons, Call.exec, hstep, Option.some_bind]
    rw [hrest]
    simp [Phase.AddFunction]

theorem phases_cases (phases : List Phase) :
    phases = [] ∨ ∃ front last, phases = front ++ [last] := by
  rcases List.eq_nil_or_concat phases with h | ⟨front, last, h⟩
  · exact Or.inl h
  · exact Or.inr ⟨front, last, by simpa using h⟩

/-- What a completed call does to the phase list: it either adds one new phase
holding only its unit, or adds its unit at the end of the last phase. -/
theorem exec_effect
    (addparam : List (String × List String) → String → String → List (String × List String))
    (c : Call) (fchain g : Fchain) (emptyPhase e : Bool)
    (h : c.exec addparam fchain emptyPhase = some (g, e)) :
    g = fchain.withPhases (fchain.chain.Phases ++ [{ Functions := [c.unit addparam] }])
    ∨ ∃ front last, fchain.chain.Phases = front ++ [last]
        ∧ g = fchain.withPhases (front ++ [last.AddFunction (c.unit addparam)]) := by
  rcases phases_cases fchain.chain.Phases with hp | ⟨front, last, hp⟩
  · cases c with
    | ApplyModifier mod =>
      rw [Call.exec, ApplyModifier_nil mod fchain emptyPhase hp] at h
      simp only [Option.some.injEq, Prod.mk.injEq] at h
      exact Or.inl (by rw [← h.1, hp]; rfl)
    | Callback url opts =>
      rw [Call.exec, Callback_nil addparam url opts fchain emptyPhase hp] at h
      simp only [Option.some.injEq, Prod.mk.injEq] at h
      exact Or.inl (by rw [← h.1, hp]; rfl)
    | Apply function opts =>
      cases hs : (Apply.options addparam function opts).2
      · cases emptyPhase
        · rw [Call.exec, Apply_new addparam function opts fchain false (Or.inl ⟨hs, rfl⟩)] at h
          simp only [Option.some.injEq, Prod.mk.injEq] at h
          exact Or.inl (by rw [← h.1]; rfl)
        · rw [Call.exec, Apply_missing addparam function opts fchain hs hp] at h
          cases h
      · rw [Call.exec, Apply_new addparam function opts fchain emptyPhase (Or.inr ⟨hs, hp⟩)] at h
        simp only [Option.some.injEq, Prod.mk.injEq] at h
        exact Or.inl (by rw [← h.1]; rfl)
  · cases c with
    | ApplyModifier mod =>
      rw [Call.exec, ApplyModifier_last mod fchain emptyPhase front last hp] at h
      simp only [Option.some.injEq, Prod.mk.injEq] at h
      exact Or.inr ⟨front, last, hp, by rw [← h.1]; rfl⟩
    | Callback url opts =>
      rw [Call.exec, Callback_last addparam url opts fchain emptyPhase front last hp] at h
      simp only [Option.some.injEq, Prod.mk.injEq] at h
      exact Or.inr ⟨front, last, hp, by rw [← h.1]; rfl⟩
    | Apply function opts =>
      by_cases hl : (Apply.options addparam function opts).2 = true ∨ emptyPhase = true
      · rw [Call.exec, Apply_last addparam function opts fchain emptyPhase front last hp hl] at h
        simp only [Option.some.injEq, Prod.mk.injEq] at h
        exact Or.inr ⟨front, last, hp, by rw [← h.1]; rfl⟩
      · have hs : (Apply.options addparam function opts).2 = false := by
          cases hv : (Apply.options addparam function opts).2
          · rfl
          · exact absurd (Or.inl hv) hl
        have he : emptyPhase = false := by
          cases emptyPhase
          · rfl
          · exact absurd (Or.inr rfl) hl
        rw [Call.exec, Apply_new addparam function opts fchain emptyPhase (Or.inl ⟨hs, he⟩)] at h
        simp only [Option.some.injEq, Prod.mk.injEq] at h
        exact Or.inl (by rw [← h.1]; rfl)

theorem PhasesExtend_refl (phases : List Phase) : PhasesExtend phases phases :=
  fun _ p hp => ⟨p, hp, List.prefix_refl _⟩

theorem PhasesExtend_append (phases more : List Phase) :
    PhasesExtend phases (phases ++ more) := by
  intro i p hp
  have hi : i < phases.length := by
    rcases Nat.lt_or_ge i phases.length with h | h
    · exact h
    · rw [List.getElem?_eq_none h] at hp
      cases hp
  exact ⟨p, by rw [List.getElem?_append_left hi]; exact hp, List.prefix_refl _⟩

theorem PhasesExtend_last (front : List Phase) (last : Phase) (u : ExecutableUnit) :
    PhasesExtend (front ++ [last]) (front ++ [last.AddFunction u]) := by
  intro i p hp
  rcases Nat.lt_or_ge i front.length with h | h
  · rw [List.getElem?_append_left h] at hp
    exact ⟨p, by rw [List.getElem?_append_left h]; exact hp, List.prefix_refl _⟩
  · rw [List.getElem?_append_right h] at hp
    rw [List.getElem?_append_right h]
    cases hj : i - front.length with
    | zero =>
      rw [hj] at hp
      simp only [List.getElem?_cons_zero, Option.some.injEq] at hp
      refine ⟨last.AddFunction u, by simp, ?_⟩
      rw [← hp]
      exact List.prefix_append _ _
    | succ j =>
      rw [hj] at hp
      simp at hp

theorem exec_total
    (addparam : List (String × List String) → String → String → List (String × List String))
    (c : Call) (fchain : Fchain) (emptyPhase : Bool)
    (hinv : emptyPhase = true → fchain.chain.Phases ≠ []) :
    ∃ g e, c.exec addparam fchain emptyPhase = some (g, e) := by
  rcases phases_cases fchain.chain.Phases with hp | ⟨front, last, hp⟩
  · have he : emptyPhase = false := by
      cases emptyPhase
      · rfl
      · exact absurd hp (hinv rfl)
    cases c with
    | ApplyModifier mod => exact ⟨_, _, ApplyModifier_nil mod fchain emptyPhase hp⟩
    | Callback url opts => exact ⟨_, _, Callback_nil addparam url opts fchain emptyPhase hp⟩
    | Apply function opts =>
      cases hs : (Apply.options addparam function opts).2
      · exact ⟨_, _, Apply_new addparam function opts fchain emptyPhase (Or.inl ⟨hs, he⟩)⟩
      · exact ⟨_, _, Apply_new addparam function opts fchain emptyPhase (Or.inr ⟨hs, hp⟩)⟩
  · cases c with
    | ApplyModifier mod => exact ⟨_, _, ApplyModifier_last mod fchain emptyPhase front last hp⟩
    | Callback url opts =>
      exact ⟨_, _, Callback_last addparam url opts fchain emptyPhase front last hp⟩
    | Apply function opts =>
      by_cases hl : (Apply.options addparam function opts).2 = true ∨ emptyPhase = true
      · exact ⟨_, _, Apply_last addparam function opts fchain emptyPhase front last hp hl⟩
      · have hs : (Apply.options addparam function opts).2 = false := by
          cases hv : (Apply.options addparam function opts).2
          · rfl
          · exact absurd (Or.inl hv) hl
        have he : emptyPhase = false := by
          cases emptyPhase
          · rfl
          · exact absurd (Or.inr rfl) hl
        exact ⟨_, _, Apply_new addparam function opts fchain emptyPhase (Or.inl ⟨hs, he⟩)⟩

theorem exec_units
    (addparam : List (String × List String) → String → String → List (String × List String))
    (c : Call) (fchain g : Fchain) (emptyPhase e : Bool)
    (h : c.exec addparam fchain emptyPhase = some (g, e)) :
    g.chain.Phases ≠ []
    ∧ g.chain.Phases.flatMap (fun p => p.Functions)
      = fchain.chain.Phases.flatMap (fun p => p.Functions) ++ [c.unit addparam] := by
  rcases exec_effect addparam c fchain g emptyPhase e h with hg | ⟨front, last, hp, hg⟩
  · rw [hg]
    simp
  · rw [hg, hp]
    simp [Phase.AddFunction]

theorem run_units
    (addparam : List (String × List String) → String → String → List (String × List String))
    (calls : List Call) (fchain : Fchain) (emptyPhase : Bool)
    (hinv : emptyPhase = true → fchain.chain.Phases ≠ []) :
    ∃ g e, run addparam calls fchain emptyPhase = some (g, e)
      ∧ (e = true → g.chain.Phases ≠ [])
      ∧ g.chain.Phases.flatMap (fun p => p.Functions)
        = fchain.chain.Phases.flatMap (fun p => p.Functions)
          ++ calls.map (Call.unit addparam) := by
  induction calls generalizing fchain emptyPhase with
  | nil => exact ⟨fchain, emptyPhase, rfl, hinv, by simp⟩
  | cons c calls ih =>
    obtain ⟨g1, e1, h1⟩ := exec_total addparam c fchain emptyPhase hinv
    obtain ⟨hne, hu⟩ := exec_units addparam c fchain g1 emptyPhase e1 h1
    obtain ⟨g, e, hr, hi, hf⟩ := ih g1 e1 (fun _ => hne)
    refine ⟨g, e, ?_, hi, ?_⟩
    · rw [run_cons, h1]
      exact hr
    · rw [hf, hu]
      simp

theorem lastHeader_isSome (args : List OptionArg) (key : String) :
    (∃ v, lastHeader args key = some v) ↔ ∃ v, OptionArg.Header key v ∈ args := by
  induction args with
  | nil => simp [lastHeader]
  | cons a args ih =>
    cases hl : lastHeader args key with
    | some w =>
      obtain ⟨v, hv⟩ := ih.mp ⟨w, hl⟩
      constructor
      · intro _
        exact ⟨v, List.mem_cons_of_mem _ hv⟩
      · intro _
        exact ⟨w, by simp [lastHeader, hl]⟩
    | none =>
      have hno : ¬ ∃ v, OptionArg.Header key v ∈ args := by
        intro h
        obtain ⟨v, hv⟩ := ih.mpr h
        rw [hl] at hv
        cases hv
      cases a with
      | SyncCall =>
        simp only [lastHeader, hl, List.mem_cons]
        constructor
        · rintro ⟨v, hv⟩
          cases hv
        · rintro ⟨v, hv | hv⟩
          · cases hv
          · exact absurd ⟨v, hv⟩ hno
      | Query k vs =>
        simp only [lastHeader, hl, List.mem_cons]
        constructor
        · rintro ⟨v, hv⟩
          cases hv
        · rintro ⟨v, hv | hv⟩
          · cases hv
          · exact absurd ⟨v, hv⟩ hno
      | Header k v =>
        simp only [lastHeader, hl, List.mem_cons]
        by_cases hk : k = key
        · subst hk
          simp
        · constructor
          · rintro ⟨w, hw⟩
            simp [hk] at hw
          · rintro ⟨w, hw | hw⟩
            · injection hw with h1 h2
              exact absurd h1.symm hk
            · exact absurd ⟨w, hw⟩ hno

theorem exec_total_flag
    (addparam : List (String × List String) → String → String → List (String × List String))
    (function : String) (opts : List CallOption) (fchain : Fchain) (emptyPhase : Bool)
    (g : Fchain) (e : Bool)
    (h : Apply addparam function opts fchain emptyPhase = some (g, e)) : e = false := by
  unfold Apply at h
  simp only at h
  split at h
  · cases h
  · simp only [Option.some.injEq, Prod.mk.injEq] at h
    exact h.2.symm

/-! ## Lemmas on call sequences -/

theorem Addheader_isFunction (u : ExecutableUnit) (key value : String) :
    (u.Addheader key value).isFunction = u.isFunction := by
  cases u <;> rfl

theorem Addparam_isFunction
    (addparam : List (String × List String) → String → String → List (String × List String))
    (u : ExecutableUnit) (key value : String) :
    (u.Addparam addparam key value).isFunction = u.isFunction := by
  cases u <;> rfl

theorem foldl_isFunction {α : Type} (f : ExecutableUnit → α → ExecutableUnit)
    (hf : ∀ u x, (f u x).isFunction = u.isFunction) (l : List α) (u : ExecutableUnit) :
    (l.foldl f u).isFunction = u.isFunction := by
  induction l generalizing u with
  | nil => rfl
  | cons x l ih => rw [List.foldl_cons, ih, hf]

theorem Apply_option_isFunction
    (addparam : List (String × List String) → String → String → List (String × List String))
    (st : Options × ExecutableUnit × Bool) (opt : CallOption) :
    (Apply.option addparam st opt).2.1.isFunction = st.2.1.isFunction := by
  have hh : ∀ (l : List (String × String)) (u : ExecutableUnit),
      (l.foldl (fun u kv => u.Addheader kv.1 kv.2) u).isFunction = u.isFunction :=
    fun l u => foldl_isFunction _ (fun u kv => Addheader_isFunction u kv.1 kv.2) l u
  have hq : ∀ (l : List (String × List String)) (u : ExecutableUnit),
      (l.foldl (fun u ka => ka.2.foldl (fun u value => u.Addparam addparam ka.1 value) u)
        u).isFunction = u.isFunction :=
    fun l u => foldl_isFunction _
      (fun u ka => foldl_isFunction _ (fun u v => Addparam_isFunction addparam u ka.1 v) ka.2 u)
      l u
  simp only [Apply.option]
  split <;> split <;> simp [hh, hq]

theorem Callback_option_isFunction
    (addparam : List (String × List String) → String → String → List (String × List String))
    (st : Options × ExecutableUnit) (opt : CallOption) :
    (Callback.option addparam st opt).2.isFunction = st.2.isFunction := by
  have hh : ∀ (l : List (String × String)) (u : ExecutableUnit),
      (l.foldl (fun u kv => u.Addheader kv.1 kv.2) u).isFunction = u.isFunction :=
    fun l u => foldl_isFunction _ (fun u kv => Addheader_isFunction u kv.1 kv.2) l u
  have hq : ∀ (l : List (String × List String)) (u : ExecutableUnit),
      (l.foldl (fun u ka => ka.2.foldl (fun u value => u.Addparam addparam ka.1 value) u)
        u).isFunction = u.isFunction :=
    fun l u => foldl_isFunction _
      (fun u ka => foldl_isFunction _ (fun u v => Addparam_isFunction addparam u ka.1 v) ka.2 u)
      l u
  simp only [Callback.option]
  split <;> split <;> simp [hh, hq]

theorem Apply_options_isFunction
    (addparam : List (String × List String) → String → String → List (String × List String))
    (function : String) (opts : List CallOption) :
    (Apply.options addparam function opts).1.isFunction = true := by
  have h : ∀ (l : List CallOption) (st : Options × ExecutableUnit × Bool),
      (l.foldl (Apply.option addparam) st).2.1.isFunction = st.2.1.isFunction := by
    intro l
    induction l with
    | nil => intro st; rfl
    | cons opt l ih =>
      intro st
      rw [List.foldl_cons, ih, Apply_option_isFunction]
  exact h opts _

theorem Callback_unit_isFunction
    (addparam : List (String × List String) → String → String → List (String × List String))
    (url : String) (opts : List CallOption) :
    (Callback.unit addparam url opts).isFunction = false := by
  have h : ∀ (l : List CallOption) (st : Options × ExecutableUnit),
      (l.foldl (Callback.option addparam) st).2.isFunction = st.2.isFunction := by
    intro l
    induction l with
    | nil => intro st; rfl
    | cons opt l ih =>
      intro st
      rw [List.foldl_cons, ih, Callback_option_isFunction]
  exact h opts _

theorem Call_unit_isFunction
    (addparam : List (String × List String) → String → String → List (String × List String))
    (c : Call) : (c.unit addparam).isFunction = c.isApply := by
  cases c with
  | ApplyModifier mod => rfl
  | Callback url opts => exact Callback_unit_isFunction addparam url opts
  | Apply function opts => exact Apply_options_isFunction addparam function opts

theorem run_concat
    (addparam : List (String × List String) → String → String → List (String × List String))
    (calls : List Call) (c : Call) (fchain : Fchain) (emptyPhase : Bool) :
    run addparam (calls ++ [c]) fchain emptyPhase
      = (run addparam calls fchain emptyPhase).bind (fun s => c.exec addparam s.1 s.2) := by
  simp only [run, List.foldlM_append, List.foldlM_cons, List.foldlM_nil]
  cases List.foldlM (fun s c => Call.exec addparam c s.1 s.2) (fchain, emptyPhase) calls with
  | none => rfl
  | some s =>
    simp only [Option.bind_eq_bind, Option.some_bind]
    cases Call.exec addparam c s.1 s.2 <;> rfl

theorem exec_placeholder_nil
    (addparam : List (String × List String) → String → String → List (String × List String))
    (c : Call) (fchain : Fchain) (emptyPhase : Bool)
    (hc : c.isApply = false) (hp : fchain.chain.Phases = []) :
    c.exec addparam fchain emptyPhase
      = some (fchain.withPhases [{ Functions := [c.unit addparam] }], true) := by
  cases c with
  | ApplyModifier mod => exact ApplyModifier_nil mod fchain emptyPhase hp
  | Callback url opts => exact Callback_nil addparam url opts fchain emptyPhase hp
  | Apply function opts => cases hc

theorem exec_placeholder_last
    (addparam : List (String × List String) → String → String → List (String × List String))
    (c : Call) (fchain : Fchain) (emptyPhase : Bool) (front : List Phase) (last : Phase)
    (hc : c.isApply = false) (hp : fchain.chain.Phases = front ++ [last]) :
    c.exec addparam fchain emptyPhase
      = some (fchain.withPhases (front ++ [last.AddFunction (c.unit addparam)]),
          emptyPhase) := by
  cases c with
  | ApplyModifier mod => exact ApplyModifier_last mod fchain emptyPhase front last hp
  | Callback url opts => exact Callback_last addparam url opts fchain emptyPhase front last hp
  | Apply function opts => cases hc

theorem Reached_nil
    (addparam : List (String × List String) → String → String → List (String × List String)) :
    Reached addparam [] [] false := by
  simp [Reached]

theorem Reached_step
    (addparam : List (String × List String) → String → String → List (String × List String))
    (calls : List Call) (c : Call) (g : Fchain) (e : Bool)
    (h : Reached addparam calls g.chain.Phases e) :
    ∃ g' e', c.exec addparam g e = some (g', e')
      ∧ Reached addparam (calls ++ [c]) g'.chain.Phases e'
      ∧ g' = g.withPhases g'.chain.Phases := by
  obtain ⟨h1, h2, h3, h4, h5, h6⟩ := h
  by_cases hc : c.isApply = false
  · rcases phases_cases g.chain.Phases with hp | ⟨front, last, hp⟩
    · have hcalls : calls = [] := h2.mp hp
      subst hcalls
      refine ⟨_, _, exec_placeholder_nil addparam c g e hc hp, ⟨?_, ?_, ?_, ?_, ?_, ?_⟩, rfl⟩
      · simp [hc]
      · simp
      · intro _
        simp
      · simp
      · simp
      · simp
    · have hcalls : calls ≠ [] := by
        intro hn
        have := h2.mpr hn
        rw [hp] at this
        simp at this
      refine ⟨_, _, exec_placeholder_last addparam c g e front last hc hp,
        ⟨?_, ?_, ?_, ?_, ?_, ?_⟩, rfl⟩
      · rw [h1]
        constructor
        · rintro ⟨_, hall⟩
          refine ⟨by simp, ?_⟩
          intro c' hc'
          rcases List.mem_append.mp hc' with hm | hm
          · exact hall c' hm
          · rw [List.mem_singleton.mp hm]
            exact hc
        · rintro ⟨_, hall⟩
          exact ⟨hcalls, fun c' hc' => hall c' (List.mem_append_left _ hc')⟩
      · simp
      · intro hall
        have := h3 (fun c' hc' => hall c' (List.mem_append_left _ hc'))
        rw [hp] at this
        simpa using this
      · rw [hp] at h4
        simp only [withPhases_Phases, List.flatMap_append, List.flatMap_cons, List.flatMap_nil,
          List.append_nil, List.map_append, List.map_cons, List.map_nil, Phase.AddFunction]
          at h4 ⊢
        rw [← h4, List.append_assoc]
      · intro p hp'
        simp only [withPhases_Phases] at hp'
        rcases List.mem_append.mp hp' with hm | hm
        · exact h5 p (by rw [hp]; exact List.mem_append_left _ hm)
        · rw [List.mem_singleton.mp hm]
          simp [Phase.AddFunction]
      · rw [hp] at h6
        simp only [withPhases_Phases, List.length_append, List.length_cons, List.length_nil]
          at h6 ⊢
        omega
  · have hap : c.isApply = true := by
      cases hv : c.isApply
      · exact absurd hv hc
      · rfl
    have hinv : e = true → g.chain.Phases ≠ [] := by
      intro he hp
      exact (h1.mp he).1 (h2.mp hp)
    obtain ⟨g', e', hex⟩ := exec_total addparam c g e hinv
    have he' : e' = false := by
      cases c with
      | ApplyModifier mod => cases hap
      | Callback url opts => cases hap
      | Apply function opts => exact exec_total_flag addparam function opts g e g' e' hex
    obtain ⟨hne, hu⟩ := exec_units addparam c g g' e e' hex
    have hshape := exec_effect addparam c g g' e e' hex
    refine ⟨g', e', hex, ⟨?_, ?_, ?_, ?_, ?_, ?_⟩, ?_⟩
    · rw [he']
      constructor
      · intro hf
        cases hf
      · rintro ⟨_, hall⟩
        have := hall c (by simp)
        rw [hap] at this
        cases this
    · constructor
      · intro hp
        exact absurd hp hne
      · intro hn
        simp at hn
    · intro hall
      have := hall c (by simp)
      rw [hap] at this
      cases this
    · rw [hu, h4]
      simp
    · rcases hshape with hg | ⟨front, last, hp, hg⟩
      · intro p hp'
        rw [hg] at hp'
        simp only [withPhases_Phases] at hp'
        rcases List.mem_append.mp hp' with hm | hm
        · exact h5 p hm
        · rw [List.mem_singleton.mp hm]
          simp
      · intro p hp'
        rw [hg] at hp'
        simp only [withPhases_Phases] at hp'
        rcases List.mem_append.mp hp' with hm | hm
        · exact h5 p (by rw [hp]; exact List.mem_append_left _ hm)
        · rw [List.mem_singleton.mp hm]
          simp [Phase.AddFunction]
    · rcases hshape with hg | ⟨front, last, hp, hg⟩
      · rw [hg]
        simp only [withPhases_Phases, List.length_append, List.length_cons, List.length_nil]
        omega
      · rw [hg]
        rw [hp] at h6
        simp only [withPhases_Phases, List.length_append, List.length_cons, List.length_nil]
          at h6 ⊢
        omega
    · rcases hshape with hg | ⟨front, last, hp, hg⟩
      · rw [hg]
        rfl
      · rw [hg]
        rfl

theorem run_reached
    (addparam : List (String × List String) → String → String → List (String × List String))
    (calls : List Call) (fchain : Fchain) (hp : fchain.chain.Phases = []) :
    ∃ g e, run addparam calls fchain false = some (g, e)
      ∧ Reached addparam calls g.chain.Phases e
      ∧ g = fchain.withPhases g.chain.Phases := by
  induction calls using List.reverseRecOn with
  | nil =>
    refine ⟨fchain, false, rfl, ?_, ?_⟩
    · rw [hp]
      exact Reached_nil addparam
    · rw [hp]
      cases fchain with
      | mk chain id url asyncUrl chainDef =>
        cases chain with
        | mk Phases FailureHandler Fin =>
          simp only at hp
          subst hp
          rfl
  | append_singleton calls c ih =>
    obtain ⟨g, e, hr, hreach, hg⟩ := ih
    obtain ⟨g', e', hex, hreach', hg'⟩ := Reached_step addparam calls c g e hreach
    refine ⟨g', e', ?_, hreach', ?_⟩
    · rw [run_concat, hr]
      exact hex
    · rw [hg', hg]
      rfl

theorem Op_calls_append (xs ys : List Op) :
    Op.calls (xs ++ ys) = Op.calls xs ++ Op.calls ys := by
  induction xs with
  | nil => rfl
  | cons op xs ih => cases op <;> simp [Op.calls, ih]

theorem runOps_concat
    (addparam : List (String × List String) → String → String → List (String × List String))
    (encode : Chain → List UInt8 × Option String)
    (ops : List Op) (op : Op) (fchain : Fchain) (emptyPhase : Bool) :
    runOps addparam encode (ops ++ [op]) fchain emptyPhase
      = (runOps addparam encode ops fchain emptyPhase).bind
          (fun s => op.exec addparam encode s.1 s.2) := by
  simp only [runOps, List.foldlM_append, List.foldlM_cons, List.foldlM_nil]
  cases List.foldlM (fun s op => Op.exec addparam encode op s.1 s.2) (fchain, emptyPhase) ops with
  | none => rfl
  | some s =>
    simp only [Option.bind_eq_bind, Option.some_bind]
    cases Op.exec addparam encode op s.1 s.2 <;> rfl

theorem runOps_reached
    (addparam : List (String × List String) → String → String → List (String × List String))
    (encode : Chain → List UInt8 × Option String)
    (ops : List Op) (fchain : Fchain) (hp : fchain.chain.Phases = []) :
    ∃ g e, runOps addparam encode ops fchain false = some (g, e)
      ∧ Reached addparam (Op.calls ops) g.chain.Phases e := by
  induction ops using List.reverseRecOn with
  | nil =>
    refine ⟨fchain, false, rfl, ?_⟩
    rw [hp]
    exact Reached_nil addparam
  | append_singleton ops op ih =>
    obtain ⟨g, e, hr, hreach⟩ := ih
    rw [runOps_concat, hr, Op_calls_append]
    cases op with
    | call c =>
      obtain ⟨g', e', hex, hreach', _⟩ := Reached_step addparam (Op.calls ops) c g e hreach
      exact ⟨g', e', hex, hreach'⟩
    | OnFailure handler => exact ⟨_, _, rfl, by simpa [Op.calls] using hreach⟩
    | Finally handler => exact ⟨_, _, rfl, by simpa [Op.calls] using hreach⟩
    | Build => exact ⟨_, _, rfl, by simpa [Op.calls] using hreach⟩
    | SetId id => exact ⟨_, _, rfl, by simpa [Op.calls] using hreach⟩

theorem asyncApplies_cons (c : NamedCall) (calls : List NamedCall) :
    asyncApplies (c :: calls) = (if c.isAsyncApply = true then 1 else 0) + asyncApplies calls := by
  unfold asyncApplies
  by_cases h : c.isAsyncApply = true
  · simp [List.filter_cons, h]
    omega
  · simp [List.filter_cons, h]

theorem toCall_isApply (c : NamedCall) : c.toCall.isApply = c.isApply := by
  cases c <;> rfl

theorem named_sync (addparam : List (String × List String) → String → String →
      List (String × List String)) (function : String) (args : List OptionArg) :
    (Apply.options addparam function (optionsOf args)).2
      = decide (OptionArg.SyncCall ∈ args) := by
  rw [Apply_options_eq]

theorem count_from_false
    (addparam : List (String × List String) → String → String → List (String × List String))
    (calls : List NamedCall) (g : Fchain) (hne : g.chain.Phases ≠ []) :
    ∃ g', run addparam (calls.map NamedCall.toCall) g false = some (g', false)
      ∧ g'.chain.Phases.length = g.chain.Phases.length + asyncApplies calls := by
  induction calls generalizing g with
  | nil => exact ⟨g, rfl, by simp [asyncApplies]⟩
  | cons c calls ih =>
    rcases phases_cases g.chain.Phases with hp | ⟨front, last, hp⟩
    · exact absurd hp hne
    · rw [List.map_cons, run_cons, asyncApplies_cons]
      by_cases hc : c.isApply = false
      · have hex := exec_placeholder_last addparam c.toCall g false front last
          (by rw [toCall_isApply]; exact hc) hp
        have hna : ¬ c.isAsyncApply = true := by
          cases c <;> simp_all [NamedCall.isApply, NamedCall.isAsyncApply]
        obtain ⟨g', hr, hlen⟩ := ih
          (g.withPhases (front ++ [last.AddFunction (c.toCall.unit addparam)])) (by simp)
        refine ⟨g', by rw [hex]; exact hr, ?_⟩
        rw [hlen, hp]
        simp [hna]
      · cases c with
        | ApplyModifier mod => exact absurd rfl hc
        | Callback url args => exact absurd rfl hc
        | Apply function args =>
          by_cases hs : OptionArg.SyncCall ∈ args
          · have hex := Apply_last addparam function (optionsOf args) g false front last hp
              (Or.inl (by rw [named_sync]; simpa using hs))
            obtain ⟨g', hr, hlen⟩ := ih (g.withPhases (front ++ [last.AddFunction
              (Apply.options addparam function (optionsOf args)).1])) (by simp)
            refine ⟨g', by simp only [NamedCall.toCall, Call.exec]; rw [hex]; exact hr, ?_⟩
            rw [hlen, hp]
            simp [NamedCall.isAsyncApply, hs]
          · have hex := Apply_new addparam function (optionsOf args) g false
              (Or.inl ⟨by rw [named_sync]; simpa using hs, rfl⟩)
            obtain ⟨g', hr, hlen⟩ := ih (g.withPhases (g.chain.Phases
              ++ [{ Functions := [(Apply.options addparam function (optionsOf args)).1] }]))
              (by simp)
            refine ⟨g', by simp only [NamedCall.toCall, Call.exec]; rw [hex]; exact hr, ?_⟩
            rw [hlen]
            simp [NamedCall.isAsyncApply, hs]
            omega

theorem count_from_true
    (addparam : List (String × List String) → String → String → List (String × List String))
    (calls : List NamedCall) (g : Fchain) (hne : g.chain.Phases ≠ []) :
    ∃ g' e', run addparam (calls.map NamedCall.toCall) g true = some (g', e')
      ∧ g'.chain.Phases.length
          + (match calls.find? NamedCall.isApply with
             | some c => if c.isAsyncApply = true then 1 else 0
             | none => 0)
        = g.chain.Phases.length + asyncApplies calls := by
  induction calls generalizing g with
  | nil => exact ⟨g, true, rfl, by simp [asyncApplies]⟩
  | cons c calls ih =>
    rcases phases_cases g.chain.Phases with hp | ⟨front, last, hp⟩
    · exact absurd hp hne
    · rw [List.map_cons, run_cons, asyncApplies_cons]
      by_cases hc : c.isApply = false
      · have hex := exec_placeholder_last addparam c.toCall g true front last
          (by rw [toCall_isApply]; exact hc) hp
        have hna : ¬ c.isAsyncApply = true := by
          cases c <;> simp_all [NamedCall.isApply, NamedCall.isAsyncApply]
        obtain ⟨g', e', hr, hlen⟩ := ih
          (g.withPhases (front ++ [last.AddFunction (c.toCall.unit addparam)])) (by simp)
        refine ⟨g', e', by rw [hex]; exact hr, ?_⟩
        have hfind : (c :: calls).find? NamedCall.isApply = calls.find? NamedCall.isApply := by
          simp [List.find?_cons, hc]
        rw [hfind, hp, if_neg hna]
        simp only [withPhases_Phases, List.length_append, List.length_cons, List.length_nil]
          at hlen ⊢
        omega
      · cases c with
        | ApplyModifier mod => exact absurd rfl hc
        | Callback url args => exact absurd rfl hc
        | Apply function args =>
          have hex := Apply_last addparam function (optionsOf args) g true front last hp
            (Or.inr rfl)
          obtain ⟨g', hr, hlen⟩ := count_from_false addparam calls
            (g.withPhases (front ++ [last.AddFunction
              (Apply.options addparam function (optionsOf args)).1])) (by simp)
          refine ⟨g', false, by simp only [NamedCall.toCall, Call.exec]; rw [hex]; exact hr, ?_⟩
          rw [hlen, hp]
          simp only [List.find?_cons, NamedCall.isApply, withPhases_Phases, List.length_append,
            List.length_cons, List.length_nil]
          omega

theorem named_new_phase
    (addparam : List (String × List String) → String → String → List (String × List String))
    (c : NamedCall) (g g' : Fchain) (e e' : Bool) (front : List Phase) (last : Phase)
    (hp : g.chain.Phases = front ++ [last])
    (hex : c.toCall.exec addparam g e = some (g', e'))
    (hlen : g'.chain.Phases.length = g.chain.Phases.length + 1) :
    c.isAsyncApply = true := by
  cases c with
  | ApplyModifier mod =>
    rw [NamedCall.toCall, Call.exec, ApplyModifier_last mod g e front last hp] at hex
    simp only [Option.some.injEq, Prod.mk.injEq] at hex
    rw [← hex.1, hp] at hlen
    simp at hlen
  | Callback url args =>
    rw [NamedCall.toCall, Call.exec, Callback_last addparam url _ g e front last hp] at hex
    simp only [Option.some.injEq, Prod.mk.injEq] at hex
    rw [← hex.1, hp] at hlen
    simp at hlen
  | Apply function args =>
    by_cases hs : OptionArg.SyncCall ∈ args
    · rw [NamedCall.toCall, Call.exec, Apply_last addparam function _ g e front last hp
        (Or.inl (by rw [named_sync]; simpa using hs))] at hex
      simp only [Option.some.injEq, Prod.mk.injEq] at hex
      rw [← hex.1, hp] at hlen
      simp at hlen
    · simp [NamedCall.isAsyncApply, hs]

theorem run_groups
    (addparam : List (String × List String) → String → String → List (String × List String))
    (fchain : Fchain) (hnil : fchain.chain.Phases = []) (calls : List NamedCall) :
    ∀ g e, run addparam (calls.map NamedCall.toCall) fchain false = some (g, e) →
      ∃ groups : List (List NamedCall), groups.flatten = calls
        ∧ g.chain.Phases = groups.map (groupPhase addparam)
        ∧ (∀ grp ∈ groups, grp ≠ [])
        ∧ (∀ grp ∈ groups.tail, ∃ c rest, grp = c :: rest ∧ c.isAsyncApply = true) := by
  induction calls using List.reverseRecOn with
  | nil =>
    intro g e h
    simp only [List.map_nil, run_nil, Option.some.injEq, Prod.mk.injEq] at h
    exact ⟨[], rfl, by rw [← h.1, hnil]; rfl, by simp, by simp⟩
  | append_singleton calls c ih =>
    intro g' e' h
    rw [List.map_append, List.map_cons, List.map_nil, run_concat] at h
    cases hr : run addparam (calls.map NamedCall.toCall) fchain false with
    | none =>
      rw [hr] at h
      cases h
    | some s =>
      obtain ⟨g, e⟩ := s
      rw [hr] at h
      have hex : c.toCall.exec addparam g e = some (g', e') := h
      obtain ⟨groups, hflat, hphases, hne, htail⟩ := ih g e hr
      rcases exec_effect addparam c.toCall g g' e e' hex with hg | ⟨front, last, hp, hg⟩
      · refine ⟨groups ++ [[c]], by simp [hflat], ?_, ?_, ?_⟩
        · rw [hg]
          simp [hphases, groupPhase]
        · intro grp hgrp
          rcases List.mem_append.mp hgrp with hm | hm
          · exact hne grp hm
          · rw [List.mem_singleton.mp hm]
            simp
        · intro grp hgrp
          rcases phases_cases g.chain.Phases with hp | ⟨front, last, hp⟩
          · have hgroups : groups = [] := by
              rw [hphases] at hp
              exact List.map_eq_nil_iff.mp hp
            subst hgroups
            simp at hgrp
          · have hgroups : groups ≠ [] := by
              intro hn
              rw [hphases, hn] at hp
              simp at hp
            rw [List.tail_append_of_ne_nil hgroups] at hgrp
            rcases List.mem_append.mp hgrp with hm | hm
            · exact htail grp hm
            · rw [List.mem_singleton.mp hm]
              refine ⟨c, [], rfl, ?_⟩
              refine named_new_phase addparam c g g' e e' front last hp hex ?_
              rw [hg]
              simp
      · have hgroups : ∃ gfront glast, groups = gfront ++ [glast] := by
          rcases List.eq_nil_or_concat groups with hn | ⟨gfront, glast, hc⟩
          · rw [hphases, hn] at hp
            simp at hp
          · exact ⟨gfront, glast, by simpa using hc⟩
        obtain ⟨gfront, glast, hgr⟩ := hgroups
        subst hgr
        have hsplit : front = gfront.map (groupPhase addparam)
            ∧ [last] = [groupPhase addparam glast] := by
          rw [hphases, List.map_append, List.map_cons, List.map_nil] at hp
          exact (List.append_inj' hp.symm rfl)
        obtain ⟨hfront, hlast⟩ := hsplit
        have hlast' : last = groupPhase addparam glast := by
          simpa using hlast
        refine ⟨gfront ++ [glast ++ [c]], ?_, ?_, ?_, ?_⟩
        · rw [← hflat]
          simp
        · rw [hg]
          simp [hfront, hlast', groupPhase, Phase.AddFunction]
        · intro grp hgrp
          rcases List.mem_append.mp hgrp with hm | hm
          · exact hne grp (List.mem_append_left _ hm)
          · rw [List.mem_singleton.mp hm]
            simp
        · intro grp hgrp
          cases gfront with
          | nil => simp at hgrp
          | cons a rest =>
            simp only [List.cons_append, List.tail_cons] at hgrp htail
            rcases List.mem_append.mp hgrp with hm | hm
            · exact htail grp (List.mem_append_left _ hm)
            · rw [List.mem_singleton.mp hm]
              obtain ⟨c0, rest0, hgl, hasync⟩ := htail glast (by simp)
              exact ⟨c0, rest0 ++ [c], by rw [hgl]; rfl, hasync⟩

/-! ## The claims -/

/-- C1: on a freshly constructed builder with the placeholder flag false, a
sequence of `Apply` calls none of which has a `Sync` option completes and gives
exactly one phase per call, in call order, phase i holding exactly the one
function unit built by call i, whose name is the name passed to that call. -/
theorem C1_async_applies_one_phase_each
    (addparam : List (String × List String) → String → String → List (String × List String))
    (joinUrl : String → String → String) (gateway chain : String)
    (cs : List (String × List OptionArg))
    (hasync : ∀ c ∈ cs, OptionArg.SyncCall ∉ c.2) :
    run addparam (cs.map (fun c => Call.Apply c.1 (optionsOf c.2)))
        (NewFaaschain joinUrl gateway chain) false
      = some ((NewFaaschain joinUrl gateway chain).withPhases (cs.map (fun c =>
          { Functions := [(Apply.options addparam c.1 (optionsOf c.2)).1] })), false)
    ∧ (∀ c ∈ cs, ∃ header param,
        (Apply.options addparam c.1 (optionsOf c.2)).1
          = ExecutableUnit.Function c.1 header param)
    ∧ (∀ function : String,
        (Apply.options addparam function []).1 = CreateFunction function) := by
  refine ⟨?_, ?_, fun _ => rfl⟩
  · have h := run_async_applies addparam cs (NewFaaschain joinUrl gateway chain) hasync
    simpa [NewFaaschain, CreateChain] using h
  · intro c _
    exact ⟨_, _, by rw [Apply_options_eq]⟩

/-- Witness of C1: `Apply("f1")`, `Apply("f2")` on a fresh builder give two
phases, the first holding only `f1` and the second only `f2`. -/
theorem C1_async_applies_one_phase_each_witness :
    (∀ c ∈ [("f1", ([] : List OptionArg)), ("f2", [])], OptionArg.SyncCall ∉ c.2)
    ∧ run addparamAppend [Call.Apply "f1" [], Call.Apply "f2" []]
        (NewFaaschain joinUrlSlash "http://gw" "c1") false
      = some ((NewFaaschain joinUrlSlash "http://gw" "c1").withPhases
          [{ Functions := [CreateFunction "f1"] }, { Functions := [CreateFunction "f2"] }],
          false) :=
  ⟨by simp, (C1_async_applies_one_phase_each addparamAppend joinUrlSlash "http://gw" "c1"
    [("f1", []), ("f2", [])] (by simp)).1⟩

/-- C2: on a freshly constructed builder with the placeholder flag false,
`ApplyModifier(t)` (or `Callback(url)`) followed by an `Apply` gives one phase
holding the modifier (or callback) and then the function, in particular when
that `Apply` has no `Sync` option; every further `Apply` without `Sync` adds
one new phase holding only its function. -/
theorem C2_placeholder_phase_is_filled
    (addparam : List (String × List String) → String → String → List (String × List String))
    (joinUrl : String → String → String) (gateway chain : String)
    (mod : Modifier) (url : String) (copts : List CallOption)
    (f1 : String) (args1 : List OptionArg) (cs : List (String × List OptionArg))
    (hasync : ∀ c ∈ cs, OptionArg.SyncCall ∉ c.2) :
    run addparam (Call.ApplyModifier mod :: Call.Apply f1 (optionsOf args1)
          :: cs.map (fun c => Call.Apply c.1 (optionsOf c.2)))
        (NewFaaschain joinUrl gateway chain) false
      = some ((NewFaaschain joinUrl gateway chain).withPhases
          ({ Functions := [CreateModifier mod,
              (Apply.options addparam f1 (optionsOf args1)).1] }
            :: cs.map (fun c =>
              { Functions := [(Apply.options addparam c.1 (optionsOf c.2)).1] })), false)
    ∧ run addparam (Call.Callback url copts :: Call.Apply f1 (optionsOf args1)
          :: cs.map (fun c => Call.Apply c.1 (optionsOf c.2)))
        (NewFaaschain joinUrl gateway chain) false
      = some ((NewFaaschain joinUrl gateway chain).withPhases
          ({ Functions := [Callback.unit addparam url copts,
              (Apply.options addparam f1 (optionsOf args1)).1] }
            :: cs.map (fun c =>
              { Functions := [(Apply.options addparam c.1 (optionsOf c.2)).1] })), false)
    ∧ (∃ header param, (Apply.options addparam f1 (optionsOf args1)).1
          = ExecutableUnit.Function f1 header param) := by
  have hnil : (NewFaaschain joinUrl gateway chain).chain.Phases = [] := rfl
  refine ⟨?_, ?_, ⟨_, _, by rw [Apply_options_eq]⟩⟩
  · have hm := ApplyModifier_nil mod (NewFaaschain joinUrl gateway chain) false hnil
    have ha := Apply_last addparam f1 (optionsOf args1)
      ((NewFaaschain joinUrl gateway chain).withPhases [{ Functions := [CreateModifier mod] }])
      true [] { Functions := [CreateModifier mod] } rfl (Or.inr rfl)
    have hr := run_async_applies addparam cs
      ((NewFaaschain joinUrl gateway chain).withPhases
        ([] ++ [Phase.AddFunction { Functions := [CreateModifier mod] }
          (Apply.options addparam f1 (optionsOf args1)).1])) hasync
    simp only [run_cons, Call.exec, hm, Option.some_bind, ha]
    refine hr.trans ?_
    simp [Phase.AddFunction]
  · have hm := Callback_nil addparam url copts (NewFaaschain joinUrl gateway chain) false hnil
    have ha := Apply_last addparam f1 (optionsOf args1)
      ((NewFaaschain joinUrl gateway chain).withPhases
        [{ Functions := [Callback.unit addparam url copts] }])
      true [] { Functions := [Callback.unit addparam url copts] } rfl (Or.inr rfl)
    have hr := run_async_applies addparam cs
      ((NewFaaschain joinUrl gateway chain).withPhases
        ([] ++ [Phase.AddFunction { Functions := [Callback.unit addparam url copts] }
          (Apply.options addparam f1 (optionsOf args1)).1])) hasync
    simp only [run_cons, Call.exec, hm, Option.some_bind, ha]
    refine hr.trans ?_
    simp [Phase.AddFunction]

/-- Witness of C2: `ApplyModifier(t)`, `Apply("f1")`, `Apply("f2")` on a fresh
builder give the phases `[modifier(t), f1]` and `[f2]`. -/
theorem C2_placeholder_phase_is_filled_witness :
    (∀ c ∈ [("f2", ([] : List OptionArg))], OptionArg.SyncCall ∉ c.2)
    ∧ run addparamAppend [Call.ApplyModifier (fun b => Except.ok b), Call.Apply "f1" [],
          Call.Apply "f2" []]
        (NewFaaschain joinUrlSlash "http://gw" "c1") false
      = some ((NewFaaschain joinUrlSlash "http://gw" "c1").withPhases
          [{ Functions := [CreateModifier (fun b => Except.ok b), CreateFunction "f1"] },
           { Functions := [CreateFunction "f2"] }], false) :=
  ⟨by simp,
    (C2_placeholder_phase_is_filled addparamAppend joinUrlSlash "http://gw" "c1"
      (fun b => Except.ok b) "http://cb" [] "f1" [] [("f2", [])] (by simp)).1⟩

/-- C3: on a builder whose chain is empty, whatever the placeholder flag, a
non-empty sequence of `Apply` calls that each have a `Sync` option completes
and gives exactly one phase holding their functions in call order; and on a
chain that already has a phase, an `Apply` with `Sync` keeps the number of
phases and appends its function to the last phase. -/
theorem C3_sync_applies_share_one_phase
    (addparam : List (String × List String) → String → String → List (String × List String))
    (fchain : Fchain) (emptyPhase : Bool) (cs : List (String × List OptionArg))
    (hempty : fchain.chain.Phases = []) (hne : cs ≠ [])
    (hsync : ∀ c ∈ cs, OptionArg.SyncCall ∈ c.2) :
    run addparam (cs.map (fun c => Call.Apply c.1 (optionsOf c.2))) fchain emptyPhase
      = some (fchain.withPhases [{ Functions := cs.map (fun c =>
          (Apply.options addparam c.1 (optionsOf c.2)).1) }], false)
    ∧ (∀ c ∈ cs, ∃ header param, (Apply.options addparam c.1 (optionsOf c.2)).1
          = ExecutableUnit.Function c.1 header param)
    ∧ (∀ (g : Fchain) (e : Bool) (front : List Phase) (last : Phase) (function : String)
        (args : List OptionArg),
        g.chain.Phases = front ++ [last] → OptionArg.SyncCall ∈ args →
        ∃ g', Apply addparam function (optionsOf args) g e = some (g', false)
          ∧ g'.chain.Phases.length = g.chain.Phases.length
          ∧ g' = g.withPhases (front ++ [{ Functions := last.Functions
              ++ [(Apply.options addparam function (optionsOf args)).1] }])) := by
  refine ⟨?_, ?_, ?_⟩
  · cases cs with
    | nil => exact absurd rfl hne
    | cons c cs =>
      have hc : (Apply.options addparam c.1 (optionsOf c.2)).2 = true := by
        rw [Apply_options_eq]
        simpa using hsync c (List.mem_cons_self _ _)
      have hstep := Apply_new addparam c.1 (optionsOf c.2) fchain emptyPhase
        (Or.inr ⟨hc, hempty⟩)
      have hrest := run_sync_applies addparam cs
        (fchain.withPhases (fchain.chain.Phases
          ++ [{ Functions := [(Apply.options addparam c.1 (optionsOf c.2)).1] }])) false
        [] { Functions := [(Apply.options addparam c.1 (optionsOf c.2)).1] }
        (by simp [hempty]) (fun d hd => hsync d (List.mem_cons_of_mem _ hd)) (fun _ => rfl)
      simp only [List.map_cons, run_cons, Call.exec, hstep, Option.some_bind]
      rw [hrest]
      simp
  · intro c _
    exact ⟨_, _, by rw [Apply_options_eq]⟩
  · intro g e front last function args hp hs
    have hc : (Apply.options addparam function (optionsOf args)).2 = true := by
      rw [Apply_options_eq]
      simpa using hs
    refine ⟨_, Apply_last addparam function (optionsOf args) g e front last hp (Or.inl hc),
      ?_, rfl⟩
    simp [hp]

/-- Witness of C3: `Apply("f1", Sync)`, `Apply("f2", Sync)` on a fresh builder
give one phase holding `[f1, f2]`. -/
theorem C3_sync_applies_share_one_phase_witness :
    (NewFaaschain joinUrlSlash "http://gw" "c1").chain.Phases = []
    ∧ [("f1", [OptionArg.SyncCall]), ("f2", [OptionArg.SyncCall])] ≠ []
    ∧ (∀ c ∈ [("f1", [OptionArg.SyncCall]), ("f2", [OptionArg.SyncCall])],
        OptionArg.SyncCall ∈ c.2)
    ∧ run addparamAppend [Call.Apply "f1" [Sync], Call.Apply "f2" [Sync]]
        (NewFaaschain joinUrlSlash "http://gw" "c1") false
      = some ((NewFaaschain joinUrlSlash "http://gw" "c1").withPhases
          [{ Functions := [CreateFunction "f1", CreateFunction "f2"] }], false) :=
  ⟨rfl, by simp, by simp,
    (C3_sync_applies_share_one_phase addparamAppend (NewFaaschain joinUrlSlash "http://gw" "c1")
      false [("f1", [OptionArg.SyncCall]), ("f2", [OptionArg.SyncCall])] rfl (by simp)
      (by simp)).1⟩

/-- C4: `Apply` can fail to complete.  After `ApplyModifier` on one builder
has set the process-wide flag, an `Apply` without `Sync` on another builder
whose chain has zero phases takes the last phase of an empty chain and has no
phase to append to; this holds for every builder with zero phases when the
flag is true. -/
theorem C4_apply_without_phase_when_flag_set
    (addparam : List (String × List String) → String → String → List (String × List String))
    (joinUrl : String → String → String) (mod : Modifier) :
    (ApplyModifier mod (NewFaaschain joinUrl "http://gw" "b") false).map Prod.snd = some true
    ∧ Apply addparam "f" [] (NewFaaschain joinUrl "http://gw" "a") true = none
    ∧ (∀ (fchain : Fchain) (function : String) (args : List OptionArg),
        fchain.chain.Phases = [] → OptionArg.SyncCall ∉ args →
        Apply addparam function (optionsOf args) fchain true = none) := by
  refine ⟨?_, ?_, ?_⟩
  · rw [ApplyModifier_nil mod _ false rfl]
    rfl
  · exact Apply_missing addparam "f" [] _ rfl rfl
  · intro fchain function args hp hs
    refine Apply_missing addparam function (optionsOf args) fchain ?_ hp
    rw [Apply_options_eq]
    simpa using hs

/-- C5: `ApplyModifier` and `Callback` on a chain with zero phases create one
phase holding the new unit and set the placeholder flag to true; on a chain
with at least one phase they append the new unit to the tail of the last
phase, keep the number of phases and keep the flag. -/
theorem C5_modifier_and_callback_target_phase
    (addparam : List (String × List String) → String → String → List (String × List String))
    (mod : Modifier) (url : String) (opts : List CallOption)
    (fchain : Fchain) (emptyPhase : Bool) :
    (fchain.chain.Phases = [] →
      ApplyModifier mod fchain emptyPhase
        = some (fchain.withPhases [{ Functions := [CreateModifier mod] }], true)
      ∧ Callback addparam url opts fchain emptyPhase
        = some (fchain.withPhases [{ Functions := [Callback.unit addparam url opts] }], true))
    ∧ (∀ (front : List Phase) (last : Phase), fchain.chain.Phases = front ++ [last] →
      ApplyModifier mod fchain emptyPhase
        = some (fchain.withPhases
            (front ++ [{ Functions := last.Functions ++ [CreateModifier mod] }]), emptyPhase)
      ∧ Callback addparam url opts fchain emptyPhase
        = some (fchain.withPhases
            (front ++ [{ Functions := last.Functions ++ [Callback.unit addparam url opts] }]),
            emptyPhase)
      ∧ (front ++ [({ Functions := last.Functions ++ [CreateModifier mod] } : Phase)]).length
        = fchain.chain.Phases.length) := by
  refine ⟨fun h => ⟨ApplyModifier_nil mod fchain emptyPhase h,
    Callback_nil addparam url opts fchain emptyPhase h⟩, fun front last h => ⟨?_, ?_, ?_⟩⟩
  · exact ApplyModifier_last mod fchain emptyPhase front last h
  · exact Callback_last addparam url opts fchain emptyPhase front last h
  · simp [h]

/-- Witness of C5: both cases of `ApplyModifier` and `Callback` on concrete
builders, one with zero phases and one with the single phase `[f1]`. -/
theorem C5_modifier_and_callback_target_phase_witness :
    (ApplyModifier (fun b => Except.ok b) (NewFaaschain joinUrlSlash "http://gw" "c1") false
        = some ((NewFaaschain joinUrlSlash "http://gw" "c1").withPhases
            [{ Functions := [CreateModifier (fun b => Except.ok b)] }], true)
      ∧ Callback addparamAppend "http://cb" [] (NewFaaschain joinUrlSlash "http://gw" "c1") false
        = some ((NewFaaschain joinUrlSlash "http://gw" "c1").withPhases
            [{ Functions := [CreateCallback "http://cb"] }], true))
    ∧ (ApplyModifier (fun b => Except.ok b)
          ((NewFaaschain joinUrlSlash "http://gw" "c1").withPhases
            [{ Functions := [CreateFunction "f1"] }]) false
        = some ((NewFaaschain joinUrlSlash "http://gw" "c1").withPhases
            [{ Functions := [CreateFunction "f1", CreateModifier (fun b => Except.ok b)] }],
            false)) :=
  ⟨(C5_modifier_and_callback_target_phase addparamAppend (fun b => Except.ok b) "http://cb" []
      (NewFaaschain joinUrlSlash "http://gw" "c1") false).1 rfl,
   ((C5_modifier_and_callback_target_phase addparamAppend (fun b => Except.ok b) "http://cb" []
      ((NewFaaschain joinUrlSlash "http://gw" "c1").withPhases
        [{ Functions := [CreateFunction "f1"] }]) false).2 []
      { Functions := [CreateFunction "f1"] } rfl).1⟩

/-- C6: append-only invariant.  For every builder operation (`ApplyModifier`,
`Callback`, `Apply`, `OnFailure`, `Finally`, `Build`, `SetId`) that completes,
every phase that existed before the call is still at its position after it,
its earlier units are the first units of the phase after the call, and the
number of phases has not gone down. -/
theorem C6_operations_only_append
    (addparam : List (String × List String) → String → String → List (String × List String))
    (encode : Chain → List UInt8 × Option String)
    (op : Op) (fchain g : Fchain) (emptyPhase e : Bool)
    (h : op.exec addparam encode fchain emptyPhase = some (g, e)) :
    PhasesExtend fchain.chain.Phases g.chain.Phases
    ∧ fchain.chain.Phases.length ≤ g.chain.Phases.length := by
  cases op with
  | call c =>
    rcases exec_effect addparam c fchain g emptyPhase e h with hg | ⟨front, last, hp, hg⟩
    · rw [hg]
      exact ⟨PhasesExtend_append _ _, by simp⟩
    · rw [hg, hp]
      exact ⟨PhasesExtend_last _ _ _, by simp⟩
  | OnFailure handler =>
    simp only [Op.exec, OnFailure, Option.some.injEq, Prod.mk.injEq] at h
    rw [← h.1]
    exact ⟨PhasesExtend_refl _, Nat.le_refl _⟩
  | Finally handler =>
    simp only [Op.exec, Finally, Option.some.injEq, Prod.mk.injEq] at h
    rw [← h.1]
    exact ⟨PhasesExtend_refl _, Nat.le_refl _⟩
  | Build =>
    simp only [Op.exec, Build, Option.map_some', Option.some.injEq, Prod.mk.injEq] at h
    rw [← h.1]
    exact ⟨PhasesExtend_refl _, Nat.le_refl _⟩
  | SetId id =>
    simp only [Op.exec, SetId, Option.some.injEq, Prod.mk.injEq] at h
    rw [← h.1]
    exact ⟨PhasesExtend_refl _, Nat.le_refl _⟩

/-- Witness of C6: `Apply("f2", Sync)` on a builder whose chain is the single
phase `[f1]` completes with the single phase `[f1, f2]`, which extends it. -/
theorem C6_operations_only_append_witness :
    (Op.call (Call.Apply "f2" [Sync])).exec addparamAppend encodeCount
        ((NewFaaschain joinUrlSlash "http://gw" "c1").withPhases
          [{ Functions := [CreateFunction "f1"] }]) false
      = some ((NewFaaschain joinUrlSlash "http://gw" "c1").withPhases
          [{ Functions := [CreateFunction "f1", CreateFunction "f2"] }], false)
    ∧ PhasesExtend [{ Functions := [CreateFunction "f1"] }]
        [{ Functions := [CreateFunction "f1", CreateFunction "f2"] }]
    ∧ ([{ Functions := [CreateFunction "f1"] }] : List Phase).length
      ≤ ([{ Functions := [CreateFunction "f1", CreateFunction "f2"] }] : List Phase).length :=
  ⟨rfl, C6_operations_only_append addparamAppend encodeCount (Op.call (Call.Apply "f2" [Sync]))
    ((NewFaaschain joinUrlSlash "http://gw" "c1").withPhases
      [{ Functions := [CreateFunction "f1"] }])
    ((NewFaaschain joinUrlSlash "http://gw" "c1").withPhases
      [{ Functions := [CreateFunction "f1", CreateFunction "f2"] }]) false false rfl⟩

/-- C7: construction order is preserved.  Every sequence of `ApplyModifier`,
`Callback` and `Apply` calls on a freshly constructed builder with the
placeholder flag false completes; the units of the phases, read in phase order,
are exactly the units of the calls in call order, one per call; and a `Build`
after it completes and leaves the chain as it is. -/
theorem C7_construction_order_kept
    (addparam : List (String × List String) → String → String → List (String × List String))
    (encode : Chain → List UInt8 × Option String)
    (joinUrl : String → String → String) (gateway chain : String) (calls : List Call) :
    ∃ g e, run addparam calls (NewFaaschain joinUrl gateway chain) false = some (g, e)
      ∧ g.chain.Phases.flatMap (fun p => p.Functions) = calls.map (Call.unit addparam)
      ∧ (g.chain.Phases.map (fun p => p.Functions.length)).sum = calls.length
      ∧ ∃ g' err, Build encode g e = some (g', e, err) ∧ g'.chain = g.chain := by
  obtain ⟨g, e, hr, _, hf⟩ := run_units addparam calls (NewFaaschain joinUrl gateway chain)
    false (fun h => by cases h)
  have hf' : g.chain.Phases.flatMap (fun p => p.Functions) = calls.map (Call.unit addparam) := by
    simpa [NewFaaschain, CreateChain] using hf
  refine ⟨g, e, hr, hf', ?_, _, _, rfl, rfl⟩
  have hlen := congrArg List.length hf'
  simpa [List.length_flatMap] using hlen

/-- C8: header accumulation, last wins.  For every list of options passed to
one `Apply` or `Callback` call, the header map of the new unit is the result of
inserting the pair of each `Header` option, in list order, into an empty map;
looking a key up gives the value of the last `Header` option for that key; a
key is present exactly when some `Header` option of the list has it; and
`[Header("a","1"), Header("a","2")]` gives `a=2`. -/
theorem C8_headers_last_wins
    (addparam : List (String × List String) → String → String → List (String × List String))
    (function url : String) (args : List OptionArg) (key : String) :
    (Apply.options addparam function (optionsOf args)).1.header
      = (headerEntries args).foldl (fun m kv => mapSet m kv.1 kv.2) []
    ∧ (Callback.unit addparam url (optionsOf args)).header
      = (headerEntries args).foldl (fun m kv => mapSet m kv.1 kv.2) []
    ∧ mapGet (Apply.options addparam function (optionsOf args)).1.header key
      = lastHeader args key
    ∧ mapGet (Callback.unit addparam url (optionsOf args)).header key = lastHeader args key
    ∧ ((∃ v, mapGet (Apply.options addparam function (optionsOf args)).1.header key = some v)
        ↔ ∃ v, OptionArg.Header key v ∈ args)
    ∧ mapGet (Apply.options addparam function [Header "a" "1", Header "a" "2"]).1.header "a"
      = some "2" := by
  have hget : mapGet ((headerEntries args).foldl (fun m kv => mapSet m kv.1 kv.2) []) key
      = lastHeader args key := by
    rw [mapGet_foldl_header]
    cases lastHeader args key <;> simp [mapGet]
  have ha : (Apply.options addparam function (optionsOf args)).1.header
      = (headerEntries args).foldl (fun m kv => mapSet m kv.1 kv.2) [] := by
    rw [Apply_options_eq]
    rfl
  have hc : (Callback.unit addparam url (optionsOf args)).header
      = (headerEntries args).foldl (fun m kv => mapSet m kv.1 kv.2) [] := by
    rw [Callback_unit_eq]
    rfl
  refine ⟨ha, hc, ?_, ?_, ?_, ?_⟩
  · rw [ha, hget]
  · rw [hc, hget]
  · rw [ha, hget]
    exact lastHeader_isSome args key
  · have h := Apply_options_eq addparam function
      [OptionArg.Header "a" "1", OptionArg.Header "a" "2"]
    simp only [optionsOf, List.map_cons, List.map_nil, OptionArg.toOption] at h
    rw [h]
    simp [ExecutableUnit.header, headerEntries, mapSet, mapGet]

/-- C9 as stated fails: whatever `Addparam` of package `sdk` does with one key
and one value, the unit cannot store `k=["y"]` for the options
`[Query("k","x"), Query("k","y")]` and `k=["x","y"]` for the single option
`Query("k","x","y")`, because `Apply` makes the same two `Addparam` calls in
both cases. -/
theorem C9_query_replace_counterexample :
    ¬ ∃ addparam : List (String × List String) → String → String → List (String × List String),
      mapGet (Apply.options addparam "f" [Query "k" ["x"], Query "k" ["y"]]).1.param "k"
        = some ["y"]
      ∧ mapGet (Apply.options addparam "f" [Query "k" ["x", "y"]]).1.param "k"
        = some ["x", "y"] := by
  rintro ⟨addparam, h1, h2⟩
  have e1 := Apply_options_eq addparam "f"
    [OptionArg.Query "k" ["x"], OptionArg.Query "k" ["y"]]
  have e2 := Apply_options_eq addparam "f" [OptionArg.Query "k" ["x", "y"]]
  simp only [optionsOf, List.map_cons, List.map_nil, OptionArg.toOption] at e1 e2
  rw [e1] at h1
  rw [e2] at h2
  simp only [queryEntries, headerEntries, List.map_cons, List.map_nil, List.cons_append,
    List.nil_append, List.append_nil] at h1 h2
  rw [h1] at h2
  simp at h2

/-- C9, amended: query values accumulate one `Addparam` call at a time.  For
every list of options passed to one `Apply` or `Callback` call, the
query-parameter map of the new unit is the result of one `Addparam(key, value)`
call for each value of each `Query` option, in list order and value order,
starting from the empty map; so `[Query("k","x"), Query("k","y")]` builds the
same unit as `[Query("k","x","y")]`, and a `Query` option without values leaves
the unit as it is. -/
theorem C9_query_values_accumulate
    (addparam : List (String × List String) → String → String → List (String × List String))
    (function url : String) (args : List OptionArg) (key : String) :
    (Apply.options addparam function (optionsOf args)).1.param
      = (queryEntries args).foldl (fun m kv => addparam m kv.1 kv.2) []
    ∧ (Callback.unit addparam url (optionsOf args)).param
      = (queryEntries args).foldl (fun m kv => addparam m kv.1 kv.2) []
    ∧ Apply.options addparam function [Query "k" ["x"], Query "k" ["y"]]
      = Apply.options addparam function [Query "k" ["x", "y"]]
    ∧ Callback.unit addparam url [Query "k" ["x"], Query "k" ["y"]]
      = Callback.unit addparam url [Query "k" ["x", "y"]]
    ∧ (Apply.options addparam function (optionsOf (args ++ [OptionArg.Query key []]))).1
      = (Apply.options addparam function (optionsOf args)).1 := by
  refine ⟨?_, ?_, ?_, ?_, ?_⟩
  · rw [Apply_options_eq]
    rfl
  · rw [Callback_unit_eq]
    rfl
  · have e1 := Apply_options_eq addparam function
      [OptionArg.Query "k" ["x"], OptionArg.Query "k" ["y"]]
    have e2 := Apply_options_eq addparam function [OptionArg.Query "k" ["x", "y"]]
    simp only [optionsOf, List.map_cons, List.map_nil, OptionArg.toOption] at e1 e2
    rw [e1, e2]
    rfl
  · have e1 := Callback_unit_eq addparam url
      [OptionArg.Query "k" ["x"], OptionArg.Query "k" ["y"]]
    have e2 := Callback_unit_eq addparam url [OptionArg.Query "k" ["x", "y"]]
    simp only [optionsOf, List.map_cons, List.map_nil, OptionArg.toOption] at e1 e2
    rw [e1, e2]
    rfl
  · have hh : headerEntries (args ++ [OptionArg.Query key []]) = headerEntries args := by
      induction args with
      | nil => rfl
      | cons a args ih => rw [List.cons_append, headerEntries_cons, ih, ← headerEntries_cons]
    have hq : queryEntries (args ++ [OptionArg.Query key []]) = queryEntries args := by
      clear hh
      induction args with
      | nil => rfl
      | cons a args ih => rw [List.cons_append, queryEntries_cons, ih, ← queryEntries_cons]
    rw [Apply_options_eq, Apply_options_eq, hh, hq]

/-- C10: the synchronous flag of an `Apply` call is the OR over its options.
The local variable `sync` is true at the end of the option loop exactly when
some option of the list is `SyncCall()`, wherever it stands, and the call
resolves its phase by the synchronous branch exactly in that case. -/
theorem C10_sync_is_or_over_options
    (addparam : List (String × List String) → String → String → List (String × List String))
    (function : String) (args : List OptionArg) (fchain : Fchain) (emptyPhase : Bool) :
    ((Apply.options addparam function (optionsOf args)).2 = true
      ↔ OptionArg.SyncCall ∈ args)
    ∧ Apply addparam function (optionsOf args) fchain emptyPhase
      = ((Apply.phase (decide (OptionArg.SyncCall ∈ args)) fchain.chain emptyPhase).1.AddFunction
          (Apply.phase (decide (OptionArg.SyncCall ∈ args)) fchain.chain emptyPhase).2
          (Apply.options addparam function (optionsOf args)).1).map
        (fun chain => ({ fchain with chain := chain }, false))
    ∧ (∀ before after : List OptionArg,
        (Apply.options addparam function
          (optionsOf (before ++ [OptionArg.SyncCall] ++ after))).2 = true) := by
  refine ⟨?_, ?_, ?_⟩
  · rw [Apply_options_eq]
    simp
  · have hs : (Apply.options addparam function (optionsOf args)).2
        = decide (OptionArg.SyncCall ∈ args) := by
      rw [Apply_options_eq]
    simp only [Apply, hs]
    cases (Apply.phase (decide (OptionArg.SyncCall ∈ args)) fchain.chain emptyPhase).1.AddFunction
      (Apply.phase (decide (OptionArg.SyncCall ∈ args)) fchain.chain emptyPhase).2
      (Apply.options addparam function (optionsOf args)).1 <;> rfl
  · intro before after
    rw [Apply_options_eq]
    simp

/-- C11: handler registration is last-write-wins and touches nothing else.
After `OnFailure(h1)` then `OnFailure(h2)` the failure handler is `h2`, after
`Finally(g1)` then `Finally(g2)` the finally handler is `g2`, and each of the
two calls completes and leaves the phases with their units, the other handler,
the id, the two URLs, the stored definition and the placeholder flag as they
were. -/
theorem C11_handlers_last_write_wins
    (h1 h2 : ErrorHandler) (g1 g2 : Handler) (fchain : Fchain) (emptyPhase : Bool) :
    (OnFailure h1 fchain emptyPhase).bind (fun s => OnFailure h2 s.1 s.2)
      = some ({ fchain with chain := { fchain.chain with FailureHandler := some h2 } },
          emptyPhase)
    ∧ (Finally g1 fchain emptyPhase).bind (fun s => Finally g2 s.1 s.2)
      = some ({ fchain with chain := { fchain.chain with Finally := some g2 } }, emptyPhase)
    ∧ (∃ g, OnFailure h1 fchain emptyPhase = some (g, emptyPhase)
        ∧ g.chain.FailureHandler = some h1
        ∧ g.chain.Phases = fchain.chain.Phases ∧ g.chain.Finally = fchain.chain.Finally
        ∧ g.id = fchain.id ∧ g.url = fchain.url ∧ g.asyncUrl = fchain.asyncUrl
        ∧ g.chainDef = fchain.chainDef)
    ∧ (∃ g, Finally g1 fchain emptyPhase = some (g, emptyPhase)
        ∧ g.chain.Finally = some g1
        ∧ g.chain.Phases = fchain.chain.Phases
        ∧ g.chain.FailureHandler = fchain.chain.FailureHandler
        ∧ g.id = fchain.id ∧ g.url = fchain.url ∧ g.asyncUrl = fchain.asyncUrl
        ∧ g.chainDef = fchain.chainDef) :=
  ⟨rfl, rfl, ⟨_, rfl, rfl, rfl, rfl, rfl, rfl, rfl, rfl⟩,
    ⟨_, rfl, rfl, rfl, rfl, rfl, rfl, rfl, rfl⟩⟩

/-- C12: a `Build` failure is passed through without rollback and without a
partial result.  With an `Encode` that keeps its contract (no bytes together
with an error): when `Encode` returns an error e, `Build` completes and returns
exactly e, the chain with its phases, units and handlers is unchanged, and
`GetDefinition` returns nothing; when `Encode` succeeds with bytes b, `Build`
returns no error, the chain is unchanged and `GetDefinition` returns b. -/
theorem C12_build_passes_failure_through
    (encode : Chain → List UInt8 × Option String) (hencode : EncodeContract encode)
    (fchain : Fchain) (emptyPhase : Bool) :
    (∀ e, (encode fchain.chain).2 = some e →
      ∃ g, Build encode fchain emptyPhase = some (g, emptyPhase, some e)
        ∧ g.chain = fchain.chain ∧ GetDefinition g = [])
    ∧ (∀ b, encode fchain.chain = (b, none) →
      ∃ g, Build encode fchain emptyPhase = some (g, emptyPhase, none)
        ∧ g.chain = fchain.chain ∧ GetDefinition g = b) := by
  refine ⟨?_, ?_⟩
  · intro e he
    refine ⟨{ fchain with chainDef := (encode fchain.chain).1 }, ?_, rfl, ?_⟩
    · rw [← he]
      rfl
    · exact hencode fchain.chain e he
  · intro b hb
    refine ⟨{ fchain with chainDef := (encode fchain.chain).1 }, ?_, rfl, ?_⟩
    · have h2 : (encode fchain.chain).2 = none := by rw [hb]
      rw [← h2]
      rfl
    · show (encode fchain.chain).1 = b
      rw [hb]

/-- Witness of C12: an `Encode` that keeps the contract and fails on a chain
without phases; `Build` on a fresh builder returns its error, keeps the chain
and leaves `GetDefinition` empty. -/
theorem C12_build_passes_failure_through_witness :
    EncodeContract encodeNonEmpty
    ∧ (encodeNonEmpty (NewFaaschain joinUrlSlash "http://gw" "c1").chain).2
      = some "chain has no phase"
    ∧ ∃ g, Build encodeNonEmpty (NewFaaschain joinUrlSlash "http://gw" "c1") false
        = some (g, false, some "chain has no phase")
      ∧ g.chain = (NewFaaschain joinUrlSlash "http://gw" "c1").chain
      ∧ GetDefinition g = [] := by
  have hc : EncodeContract encodeNonEmpty := by
    intro chain e he
    cases hp : chain.Phases with
    | nil => simp [encodeNonEmpty, hp]
    | cons p ps => simp [encodeNonEmpty, hp] at he
  exact ⟨hc, rfl, (C12_build_passes_failure_through encodeNonEmpty hc
    (NewFaaschain joinUrlSlash "http://gw" "c1") false).1 "chain has no phase" rfl⟩

/-- C15: the synchronous branch ignores the placeholder flag and every `Apply`
clears it.  For every builder, an `Apply` with a `Sync` option completes with
the same builder whether the flag was true or false; after every completed
`Apply`, with or without `Sync`, the flag is false; and `ApplyModifier(t)`,
`Apply(f1, Sync)`, `Apply(f2)` on a fresh builder give the two phases
`[modifier(t), f1]` and `[f2]`. -/
theorem C15_sync_branch_ignores_flag
    (addparam : List (String × List String) → String → String → List (String × List String))
    (function : String) (before after : List OptionArg) (fchain : Fchain) :
    (∃ g, Apply addparam function (optionsOf (before ++ OptionArg.SyncCall :: after)) fchain true
          = some (g, false)
        ∧ Apply addparam function (optionsOf (before ++ OptionArg.SyncCall :: after)) fchain
            false = some (g, false))
    ∧ (∀ (opts : List CallOption) (emptyPhase : Bool) (g : Fchain) (e : Bool),
        Apply addparam function opts fchain emptyPhase = some (g, e) → e = false)
    ∧ (∀ (joinUrl : String → String → String) (gateway chain f1 f2 : String) (mod : Modifier),
        run addparam [Call.ApplyModifier mod, Call.Apply f1 [Sync], Call.Apply f2 []]
            (NewFaaschain joinUrl gateway chain) false
          = some ((NewFaaschain joinUrl gateway chain).withPhases
              [{ Functions := [CreateModifier mod, CreateFunction f1] },
               { Functions := [CreateFunction f2] }], false)) := by
  have hs : (Apply.options addparam function
      (optionsOf (before ++ OptionArg.SyncCall :: after))).2 = true := by
    rw [Apply_options_eq]
    simp
  refine ⟨?_, ?_, ?_⟩
  · rcases phases_cases fchain.chain.Phases with hp | ⟨front, last, hp⟩
    · exact ⟨_, Apply_new addparam function _ fchain true (Or.inr ⟨hs, hp⟩),
        Apply_new addparam function _ fchain false (Or.inr ⟨hs, hp⟩)⟩
    · exact ⟨_, Apply_last addparam function _ fchain true front last hp (Or.inl hs),
        Apply_last addparam function _ fchain false front last hp (Or.inl hs)⟩
  · intro opts emptyPhase g e h
    rcases exec_total_flag addparam function opts fchain emptyPhase g e h with rfl
    rfl
  · intro joinUrl gateway chain f1 f2 mod
    rfl

/-- C16: interleaved construction of two builders in one process changes the
phase structure.  With `A.ApplyModifier(t)`, then `B.Apply("g", Sync)` on a
second builder, then `A.Apply("f1")`, builder `A` ends with the two phases
`[modifier(t)]` and `[f1]`; the same two calls on `A` with no call on `B` in
between give the single phase `[modifier(t), f1]`. -/
theorem C16_interleaved_builders_differ
    (addparam : List (String × List String) → String → String → List (String × List String))
    (joinUrl : String → String → String) (mod : Modifier) :
    (ApplyModifier mod (NewFaaschain joinUrl "http://gw" "a") false).bind
        (fun sa => (Apply addparam "g" [Sync] (NewFaaschain joinUrl "http://gw" "b") sa.2).bind
          (fun sb => Apply addparam "f1" [] sa.1 sb.2))
      = some ((NewFaaschain joinUrl "http://gw" "a").withPhases
          [{ Functions := [CreateModifier mod] }, { Functions := [CreateFunction "f1"] }], false)
    ∧ (ApplyModifier mod (NewFaaschain joinUrl "http://gw" "a") false).bind
        (fun sa => Apply addparam "f1" [] sa.1 sa.2)
      = some ((NewFaaschain joinUrl "http://gw" "a").withPhases
          [{ Functions := [CreateModifier mod, CreateFunction "f1"] }], false)
    ∧ ([{ Functions := [CreateModifier mod] }, { Functions := [CreateFunction "f1"] }]
          : List Phase).length
      ≠ ([{ Functions := [CreateModifier mod, CreateFunction "f1"] }] : List Phase).length :=
  ⟨rfl, rfl, by simp⟩

/-- C13 as stated fails: after `ApplyModifier`, `ApplyModifier` on a fresh
builder, the second of which was issued while the chain had one phase, an
`Apply` without `Sync` does not start a new phase; its function is folded into
the single phase. -/
theorem C13_fold_after_second_modifier_counterexample :
    (run addparamAppend [Call.ApplyModifier (fun b => Except.ok b)]
        (NewFaaschain joinUrlSlash "http://gw" "c1") false).map
        (fun s => s.1.chain.Phases.length) = some 1
    ∧ run addparamAppend [Call.ApplyModifier (fun b => Except.ok b),
          Call.ApplyModifier (fun _ => Except.error "no"), Call.Apply "f1" []]
        (NewFaaschain joinUrlSlash "http://gw" "c1") false
      = some ((NewFaaschain joinUrlSlash "http://gw" "c1").withPhases
          [{ Functions := [CreateModifier (fun b => Except.ok b),
              CreateModifier (fun _ => Except.error "no"), CreateFunction "f1"] }], false) :=
  ⟨rfl, rfl⟩

/-- C13, amended: for every sequence of `ApplyModifier`, `Callback` and `Apply`
calls on a freshly constructed builder with the placeholder flag false, the
sequence completes, and an `Apply` without `Sync` made after it is folded into
the existing phase exactly when the sequence is not empty and holds no `Apply`
(the chain then has a single phase); in every other case it starts a new
phase. -/
theorem C13_async_apply_folds_before_first_apply
    (addparam : List (String × List String) → String → String → List (String × List String))
    (joinUrl : String → String → String) (gateway chain : String)
    (pre : List Call) (function : String) (args : List OptionArg)
    (hasync : OptionArg.SyncCall ∉ args) :
    ∃ g e, run addparam pre (NewFaaschain joinUrl gateway chain) false = some (g, e)
      ∧ (e = true ↔ pre ≠ [] ∧ ∀ c ∈ pre, c.isApply = false)
      ∧ (e = true → ∃ last, g.chain.Phases = [last]
          ∧ Apply addparam function (optionsOf args) g e
            = some (g.withPhases [{ Functions := last.Functions
                ++ [(Apply.options addparam function (optionsOf args)).1] }], false))
      ∧ (e = false → Apply addparam function (optionsOf args) g e
            = some (g.withPhases (g.chain.Phases
                ++ [{ Functions := [(Apply.options addparam function (optionsOf args)).1] }]),
                false)) := by
  obtain ⟨g, e, hr, ⟨h1, h2, h3, _, _, _⟩, _⟩ :=
    run_reached addparam pre (NewFaaschain joinUrl gateway chain) rfl
  have hs : (Apply.options addparam function (optionsOf args)).2 = false := by
    rw [Apply_options_eq]
    simpa using hasync
  refine ⟨g, e, hr, h1, ?_, ?_⟩
  · intro he
    obtain ⟨hne, hall⟩ := h1.mp he
    have hlen := h3 hall
    rcases phases_cases g.chain.Phases with hp | ⟨front, last, hp⟩
    · exact absurd (h2.mp hp) hne
    · have hfront : front = [] := by
        rw [hp] at hlen
        simp only [List.length_append, List.length_cons, List.length_nil] at hlen
        exact List.eq_nil_of_length_eq_zero (by omega)
      subst hfront
      refine ⟨last, by simpa using hp, ?_⟩
      exact Apply_last addparam function (optionsOf args) g e [] last hp (Or.inr he)
  · intro he
    exact Apply_new addparam function (optionsOf args) g e (Or.inl ⟨hs, he⟩)

/-- Witness of C13: after `ApplyModifier`, `Callback` on a fresh builder an
`Apply("f1")` is folded into the single phase. -/
theorem C13_async_apply_folds_before_first_apply_witness :
    OptionArg.SyncCall ∉ ([] : List OptionArg)
    ∧ ∃ g e, run addparamAppend [Call.ApplyModifier (fun b => Except.ok b),
          Call.Callback "http://cb" []] (NewFaaschain joinUrlSlash "http://gw" "c1") false
        = some (g, e)
      ∧ (e = true ↔ [Call.ApplyModifier (fun b => Except.ok b), Call.Callback "http://cb" []] ≠ []
          ∧ ∀ c ∈ [Call.ApplyModifier (fun b => Except.ok b), Call.Callback "http://cb" []],
            c.isApply = false)
      ∧ (e = true → ∃ last, g.chain.Phases = [last]
          ∧ Apply addparamAppend "f1" (optionsOf []) g e
            = some (g.withPhases [{ Functions := last.Functions
                ++ [(Apply.options addparamAppend "f1" (optionsOf [])).1] }], false))
      ∧ (e = false → Apply addparamAppend "f1" (optionsOf []) g e
            = some (g.withPhases (g.chain.Phases
                ++ [{ Functions := [(Apply.options addparamAppend "f1" (optionsOf [])).1] }]),
                false)) :=
  ⟨by simp, C13_async_apply_folds_before_first_apply addparamAppend joinUrlSlash "http://gw" "c1"
    [Call.ApplyModifier (fun b => Except.ok b), Call.Callback "http://cb" []] "f1" []
    (by simp)⟩

/-- C14: meaning of the placeholder flag.  Every sequence of `ApplyModifier`,
`Callback`, `Apply`, `OnFailure`, `Finally`, `Build` and `SetId` calls on a
freshly constructed builder with the flag false completes, and in the state it
reaches the flag is true if and only if the chain has exactly one phase, that
phase holds no function unit, and the first phase-building call of the
sequence, the one that ran on the empty chain and created the phase, was an
`ApplyModifier` or a `Callback`. -/
theorem C14_flag_means_placeholder_phase
    (addparam : List (String × List String) → String → String → List (String × List String))
    (encode : Chain → List UInt8 × Option String)
    (joinUrl : String → String → String) (gateway chain : String) (ops : List Op) :
    ∃ g e, runOps addparam encode ops (NewFaaschain joinUrl gateway chain) false = some (g, e)
      ∧ (e = true ↔ ∃ p, g.chain.Phases = [p]
          ∧ (∀ u ∈ p.Functions, u.isFunction = false)
          ∧ ∃ c rest, Op.calls ops = c :: rest ∧ c.isApply = false) := by
  obtain ⟨g, e, hr, h1, h2, h3, h4, _, _⟩ :=
    runOps_reached addparam encode ops (NewFaaschain joinUrl gateway chain) rfl
  refine ⟨g, e, hr, ?_, ?_⟩
  · intro he
    obtain ⟨hne, hall⟩ := h1.mp he
    have hlen := h3 hall
    rcases phases_cases g.chain.Phases with hp | ⟨front, last, hp⟩
    · exact absurd (h2.mp hp) hne
    · have hfront : front = [] := by
        rw [hp] at hlen
        simp only [List.length_append, List.length_cons, List.length_nil] at hlen
        exact List.eq_nil_of_length_eq_zero (by omega)
      subst hfront
      have hp' : g.chain.Phases = [last] := by simpa using hp
      refine ⟨last, hp', ?_, ?_⟩
      · intro u hu
        rw [hp'] at h4
        simp only [List.flatMap_cons, List.flatMap_nil, List.append_nil] at h4
        rw [h4] at hu
        obtain ⟨c, hc, rfl⟩ := List.mem_map.mp hu
        rw [Call_unit_isFunction]
        exact hall c hc
      · cases hcalls : Op.calls ops with
        | nil => exact absurd hcalls hne
        | cons c rest =>
          exact ⟨c, rest, rfl, hall c (by rw [hcalls]; exact List.mem_cons_self _ _)⟩
  · rintro ⟨p, hp, hnofun, c0, rest, hcalls, _⟩
    refine h1.mpr ⟨by rw [hcalls]; simp, ?_⟩
    intro c hc
    rw [hp] at h4
    simp only [List.flatMap_cons, List.flatMap_nil, List.append_nil] at h4
    have hu : c.unit addparam ∈ p.Functions := by
      rw [h4]
      exact List.mem_map.mpr ⟨c, hc, rfl⟩
    rw [← Call_unit_isFunction addparam c]
    exact hnofun _ hu

/-- C18: single-builder safety.  Every sequence of `ApplyModifier`, `Callback`
and `Apply` calls on a freshly constructed builder with the placeholder flag
false completes, and in the state it reaches: when the flag is true the chain
has at least one phase, so `GetLastPhase` in the asynchronous branch of `Apply`
returns a phase of the chain; `GetLastPhase` in `ApplyModifier` and `Callback`,
which is called only on a chain with a phase, returns a phase of the chain as
well; and every further call completes. -/
theorem C18_flag_true_implies_phase
    (addparam : List (String × List String) → String → String → List (String × List String))
    (joinUrl : String → String → String) (gateway chain : String) (calls : List Call) :
    ∃ g e, run addparam calls (NewFaaschain joinUrl gateway chain) false = some (g, e)
      ∧ (e = true → g.chain.Phases ≠ [])
      ∧ (e = true → ∃ i, g.chain.GetLastPhase = some i ∧ i < g.chain.Phases.length)
      ∧ (g.chain.Phases.length ≠ 0 →
          ∃ i, g.chain.GetLastPhase = some i ∧ i < g.chain.Phases.length)
      ∧ (∀ c : Call, ∃ g' e', c.exec addparam g e = some (g', e')) := by
  obtain ⟨g, e, hr, hreach, _⟩ :=
    run_reached addparam calls (NewFaaschain joinUrl gateway chain) rfl
  have hinv : e = true → g.chain.Phases ≠ [] := by
    intro he hp
    exact (hreach.1.mp he).1 (hreach.2.1.mp hp)
  have hlast : g.chain.Phases.length ≠ 0 →
      ∃ i, g.chain.GetLastPhase = some i ∧ i < g.chain.Phases.length := by
    intro hlen
    exact ⟨g.chain.Phases.length - 1, by simp [Chain.GetLastPhase, hlen],
      Nat.sub_lt (Nat.pos_of_ne_zero hlen) Nat.one_pos⟩
  refine ⟨g, e, hr, hinv, ?_, hlast, ?_⟩
  · intro he
    exact hlast (fun h0 => hinv he (List.eq_nil_of_length_eq_zero h0))
  · intro c
    obtain ⟨g', e', hex, _, _⟩ := Reached_step addparam calls c g e hreach
    exact ⟨g', e', hex⟩

/-- C19: no empty phase.  Every sequence of `ApplyModifier`, `Callback` and
`Apply` calls on a freshly constructed builder with the placeholder flag false
completes, every phase of the chain it reaches holds at least one unit, and
the number of phases is at most the number of calls made. -/
theorem C19_no_empty_phase
    (addparam : List (String × List String) → String → String → List (String × List String))
    (joinUrl : String → String → String) (gateway chain : String) (calls : List Call) :
    ∃ g e, run addparam calls (NewFaaschain joinUrl gateway chain) false = some (g, e)
      ∧ (∀ p ∈ g.chain.Phases, 1 ≤ p.Functions.length)
      ∧ g.chain.Phases.length ≤ calls.length := by
  obtain ⟨g, e, hr, ⟨_, _, _, _, h5, h6⟩, _⟩ :=
    run_reached addparam calls (NewFaaschain joinUrl gateway chain) rfl
  refine ⟨g, e, hr, ?_, h6⟩
  intro p hp
  have := h5 p hp
  exact Nat.one_le_iff_ne_zero.mpr (fun h0 => this (List.eq_nil_of_length_eq_zero h0))

/-- C17: closed form for the number of phases.  Every sequence of
`ApplyModifier`, `Callback` and `Apply` calls on a freshly constructed builder
with the placeholder flag false completes, and with a the number of `Apply`
calls without `Sync` the chain has 0 phases for the empty sequence, a phases
when the first call is an `Apply` without `Sync`, 1 + a phases when the first
call is an `Apply` with `Sync`, and, when the first call is an `ApplyModifier`
or a `Callback`, a phases when the first `Apply` is without `Sync` and 1 + a
phases otherwise. -/
theorem C17_number_of_phases_closed_form
    (addparam : List (String × List String) → String → String → List (String × List String))
    (joinUrl : String → String → String) (gateway chain : String) (calls : List NamedCall) :
    ∃ g e, run addparam (calls.map NamedCall.toCall) (NewFaaschain joinUrl gateway chain) false
        = some (g, e)
      ∧ g.chain.Phases.length = closedFormPhases calls := by
  have hnil : (NewFaaschain joinUrl gateway chain).chain.Phases = [] := rfl
  cases calls with
  | nil => exact ⟨_, _, rfl, rfl⟩
  | cons c calls =>
    rw [List.map_cons, run_cons]
    by_cases hc : c.isApply = false
    · have hex := exec_placeholder_nil addparam c.toCall (NewFaaschain joinUrl gateway chain)
        false (by rw [toCall_isApply]; exact hc) hnil
      have hna : ¬ c.isAsyncApply = true := by
        cases c <;> simp_all [NamedCall.isApply, NamedCall.isAsyncApply]
      obtain ⟨g', e', hr, hlen⟩ := count_from_true addparam calls
        ((NewFaaschain joinUrl gateway chain).withPhases
          [{ Functions := [c.toCall.unit addparam] }]) (by simp)
      refine ⟨g', e', by rw [hex]; exact hr, ?_⟩
      simp only [withPhases_Phases, List.length_cons, List.length_nil] at hlen
      have hcf : closedFormPhases (c :: calls)
          = (match calls.find? NamedCall.isApply with
             | some d => if d.isAsyncApply = true then asyncApplies calls
                 else 1 + asyncApplies calls
             | none => 1 + asyncApplies calls) := by
        cases c with
        | Apply function args => cases hc
        | ApplyModifier mod =>
          simp [closedFormPhases, List.find?_cons, NamedCall.isApply, asyncApplies_cons,
            NamedCall.isAsyncApply]
        | Callback url args =>
          simp [closedFormPhases, List.find?_cons, NamedCall.isApply, asyncApplies_cons,
            NamedCall.isAsyncApply]
      rw [hcf]
      clear hcf
      generalize calls.find? NamedCall.isApply = r at hlen ⊢
      cases r with
      | none =>
        show g'.chain.Phases.length = 1 + asyncApplies calls
        have hlen' : g'.chain.Phases.length + 0 = 0 + 1 + asyncApplies calls := hlen
        omega
      | some d =>
        by_cases hd : d.isAsyncApply = true
        · show g'.chain.Phases.length
            = if d.isAsyncApply = true then asyncApplies calls else 1 + asyncApplies calls
          have hlen' : g'.chain.Phases.length + (if d.isAsyncApply = true then 1 else 0)
              = 0 + 1 + asyncApplies calls := hlen
          rw [if_pos hd] at hlen' ⊢
          omega
        · show g'.chain.Phases.length
            = if d.isAsyncApply = true then asyncApplies calls else 1 + asyncApplies calls
          have hlen' : g'.chain.Phases.length + (if d.isAsyncApply = true then 1 else 0)
              = 0 + 1 + asyncApplies calls := hlen
          rw [if_neg hd] at hlen' ⊢
          omega
    · cases c with
      | ApplyModifier mod => exact absurd rfl hc
      | Callback url args => exact absurd rfl hc
      | Apply function args =>
        by_cases hs : OptionArg.SyncCall ∈ args
        · have hex := Apply_new addparam function (optionsOf args)
            (NewFaaschain joinUrl gateway chain) false
            (Or.inr ⟨by rw [named_sync]; simpa using hs, hnil⟩)
          obtain ⟨g', hr, hlen⟩ := count_from_false addparam calls
            ((NewFaaschain joinUrl gateway chain).withPhases
              ((NewFaaschain joinUrl gateway chain).chain.Phases
                ++ [{ Functions := [(Apply.options addparam function (optionsOf args)).1] }]))
            (by simp)
          refine ⟨g', false, by simp only [NamedCall.toCall, Call.exec]; rw [hex]; exact hr, ?_⟩
          rw [hlen]
          simp [closedFormPhases, hs, asyncApplies_cons, NamedCall.isAsyncApply, hnil]
        · have hex := Apply_new addparam function (optionsOf args)
            (NewFaaschain joinUrl gateway chain) false
            (Or.inl ⟨by rw [named_sync]; simpa using hs, rfl⟩)
          obtain ⟨g', hr, hlen⟩ := count_from_false addparam calls
            ((NewFaaschain joinUrl gateway chain).withPhases
              ((NewFaaschain joinUrl gateway chain).chain.Phases
                ++ [{ Functions := [(Apply.options addparam function (optionsOf args)).1] }]))
            (by simp)
          refine ⟨g', false, by simp only [NamedCall.toCall, Call.exec]; rw [hex]; exact hr, ?_⟩
          rw [hlen]
          simp [closedFormPhases, hs, asyncApplies_cons, NamedCall.isAsyncApply, hnil]

/-- C20: phase boundaries come only from asynchronous functions.  Every
sequence of `ApplyModifier`, `Callback` and `Apply` calls on a freshly
constructed builder with the placeholder flag false completes, and the phases
of the chain it reaches are the call sequence cut into consecutive non-empty
groups, every group other than the first starting with an `Apply` without
`Sync`; so every phase other than the first begins with the function unit that
such an `Apply` added, and a phase that begins with a modifier, a callback or
the function of an `Apply` with `Sync` can only be the first. -/
theorem C20_phases_start_at_async_apply
    (addparam : List (String × List String) → String → String → List (String × List String))
    (joinUrl : String → String → String) (gateway chain : String) (calls : List NamedCall) :
    ∃ g e, ∃ groups : List (List NamedCall),
      run addparam (calls.map NamedCall.toCall) (NewFaaschain joinUrl gateway chain) false
        = some (g, e)
      ∧ groups.flatten = calls
      ∧ g.chain.Phases = groups.map (groupPhase addparam)
      ∧ (∀ grp ∈ groups, grp ≠ [])
      ∧ (∀ grp ∈ groups.tail, ∃ c rest, grp = c :: rest ∧ c.isAsyncApply = true)
      ∧ (∀ p ∈ g.chain.Phases.tail, ∃ function args,
          OptionArg.SyncCall ∉ args
          ∧ p.Functions.head? = some (Apply.options addparam function (optionsOf args)).1
          ∧ ∃ header param, (Apply.options addparam function (optionsOf args)).1
              = ExecutableUnit.Function function header param) := by
  obtain ⟨g, e, hr, _, _⟩ := run_reached addparam (calls.map NamedCall.toCall)
    (NewFaaschain joinUrl gateway chain) rfl
  obtain ⟨groups, hflat, hphases, hne, htail⟩ :=
    run_groups addparam (NewFaaschain joinUrl gateway chain) rfl calls g e hr
  refine ⟨g, e, groups, hr, hflat, hphases, hne, htail, ?_⟩
  intro p hp
  rw [hphases, ← List.map_tail] at hp
  obtain ⟨grp, hgrp, rfl⟩ := List.mem_map.mp hp
  obtain ⟨c, rest, hc, hasync⟩ := htail grp hgrp
  cases c with
  | ApplyModifier mod => simp [NamedCall.isAsyncApply] at hasync
  | Callback url args => simp [NamedCall.isAsyncApply] at hasync
  | Apply function args =>
    refine ⟨function, args, by simpa [NamedCall.isAsyncApply] using hasync, ?_,
      ⟨_, _, by rw [Apply_options_eq]⟩⟩
    rw [hc]
    rfl

end faaschain
